import Mathlib

/-!
Verification of the RECIPE/PINT decode core: a shallow embedding of the
probability-table (APA) loader, the two hash oracles, the two decision
policies, the path simulator, the equation builder and the bit-plane GF(2)
solver found in decoding.py, decoding_murmur.py and sim_murmur.py, together
with theorems about their behaviour.

Machine integers are modelled as Nat with explicit masking by 2^32 where the
Python code masks with 0xFFFFFFFF; Python's wrap-around subtraction
(h - a) & 0xFFFFFFFF on 32-bit operands is rendered as (h + (2^32 - a)) % 2^32,
which agrees with it for h, a < 2^32.  Python sets become Finset Nat, and a
function that can raise becomes Option/Except.
-/

set_option maxRecDepth 8000

/-- Extract bit i of x, as the Nat 0 or 1: the Python idiom (x >> i) & 1. -/
def getBit (x i : ℕ) : ℕ := (x >>> i) &&& 1

namespace Murmur

/-- mix32 from decoding_murmur.py / sim_murmur.py / table_generation.py:
xor-shift-16, multiply 0x7FEB352D, xor-shift-15, multiply 0x846CA68B,
xor-shift-16, all modulo 2^32. -/
def mix32 (x0 : ℕ) : ℕ :=
  let x1 := x0 &&& 0xFFFFFFFF
  let x2 := x1 ^^^ (x1 >>> 16)
  let x3 := (x2 * 0x7FEB352D) &&& 0xFFFFFFFF
  let x4 := x3 ^^^ (x3 >>> 15)
  let x5 := (x4 * 0x846CA68B) &&& 0xFFFFFFFF
  x5 ^^^ (x5 >>> 16)

/-- recipe_hash_v4 from decoding_murmur.py: the avalanche-mix hash oracle. -/
def recipe_hash_v4 (pktid hopid : ℕ) : ℕ :=
  let pid := mix32 (pktid &&& 0xFFFFFFFF)
  let combined := (pid ^^^ ((hopid * 0x9E3779B9) &&& 0xFFFFFFFF) ^^^ 0xA5A5A5A5) &&& 0xFFFFFFFF
  mix32 combined

end Murmur

namespace Decoding

/-- ipv4_to_u32 "10.0.0.1" from decoding.py (big-endian byte packing). -/
def SRC_IP_U32 : ℕ := 0x0A000001

/-- ipv4_to_u32 "10.0.0.2" from decoding.py. -/
def DST_IP_U32 : ℕ := 0x0A000002

/-- IP_PROTO_RECIPE from decoding.py. -/
def IP_PROTO_RECIPE : ℕ := 146

/-- Big-endian 4-byte serialisation of a 32-bit value (struct code I). -/
def bytesBE4 (x : ℕ) : List ℕ :=
  [(x >>> 24) &&& 0xFF, (x >>> 16) &&& 0xFF, (x >>> 8) &&& 0xFF, x &&& 0xFF]

/-- Big-endian 2-byte serialisation of a 16-bit value (struct code H). -/
def bytesBE2 (x : ℕ) : List ℕ := [(x >>> 8) &&& 0xFF, x &&& 0xFF]

/-- struct.pack("!IIBHB", a, b, c, d, e) from decoding.py's recipe_hash_v4:
yields the 12-byte big-endian layout, or fails (struct.error) when an argument
is out of range for its format code. -/
def pack_IIBHB (a b c d e : ℕ) : Option (List ℕ) :=
  if a < 2^32 ∧ b < 2^32 ∧ c < 2^8 ∧ d < 2^16 ∧ e < 2^8 then
    some (bytesBE4 a ++ bytesBE4 b ++ [c] ++ bytesBE2 d ++ [e])
  else none

/-- One bit-step of the reflected IEEE CRC-32 (polynomial 0xEDB88320),
iterated fuel times; zlib.crc32 performs 8 such steps per byte. -/
def crc32Step (crc : ℕ) : ℕ → ℕ
  | 0 => crc
  | n + 1 => crc32Step (if crc &&& 1 = 1 then (crc >>> 1) ^^^ 0xEDB88320 else crc >>> 1) n

/-- Byte loop of zlib.crc32 with running state (initialised to 0xFFFFFFFF). -/
def crc32Aux : List ℕ → ℕ → ℕ
  | [], crc => crc
  | b :: rest, crc => crc32Aux rest (crc32Step (crc ^^^ b) 8)

/-- zlib.crc32 over a byte list (standard reflected CRC-32 with init and
final xor 0xFFFFFFFF). -/
def crc32 (data : List ℕ) : ℕ := crc32Aux data 0xFFFFFFFF ^^^ 0xFFFFFFFF

/-- recipe_hash_v4 from decoding.py: CRC-32 of the packed
{src, dst, proto, identification := pktid, hop_count := hopid} layout, masked
to 32 bits.  Returns none when struct.pack would raise (pktid not a 16-bit
value or hopid not an 8-bit value). -/
def recipe_hash_v4 (pktid hopid : ℕ) : Option ℕ :=
  (pack_IIBHB SRC_IP_U32 DST_IP_U32 IP_PROTO_RECIPE pktid hopid).map
    (fun data => crc32 data &&& 0xFFFFFFFF)

end Decoding

/-- _sign_bit from decoding.py: (x >> 31) & 1. -/
def _sign_bit (x : ℕ) : ℕ := (x >>> 31) &&& 1

/-- _p4_add_decision from decoding.py: the 'add' branch condition, emulating
the P4 two's-complement subtraction h - a and sign-bit inspection. -/
def _p4_add_decision (hash_id a_prob : ℕ) : Bool :=
  let h := hash_id &&& 0xFFFFFFFF
  let a := a_prob &&& 0xFFFFFFFF
  let res := (h + (2^32 - a)) % 2^32
  let h_sign := _sign_bit h
  let a_sign := _sign_bit a
  let res_sign := _sign_bit res
  let msb : ℕ := if (h_sign = 0 ∧ a_sign = 0) ∨ (h_sign = 1 ∧ a_sign = 1) then 1 else 0
  decide ((h_sign = 0 ∧ a_sign = 1) ∨ (msb = 1 ∧ res_sign = 1))

/-- _p4_replace_decision from decoding.py: the 'replace' branch condition.
As in the source, res is computed but the returned condition only inspects
h_sign and c_sign. -/
def _p4_replace_decision (hash_id cum_prob : ℕ) : Bool :=
  let h := hash_id &&& 0xFFFFFFFF
  let c := cum_prob &&& 0xFFFFFFFF
  let res := (c + (2^32 - h)) % 2^32
  let h_sign := _sign_bit h
  let c_sign := _sign_bit c
  let msb_r : ℕ := if (c_sign = 0 ∧ h_sign = 0) ∨ (c_sign = 1 ∧ h_sign = 1) then 1 else 0
  decide ((h_sign = 0 ∧ c_sign = 0) ∨ (msb_r = 1 ∧ c_sign = 1))

/-- The REPLACE rule as the specification describes it: the ADD sign-overflow
rule applied symmetrically to the subtraction replace_threshold - h, deciding
REPLACE when the sign pattern indicates the threshold is effectively below h
(sign bits differ in the forcing direction, or the operands share a sign and
the subtraction result has sign bit 1). -/
def replace_decision_spec (hash_id cum_prob : ℕ) : Bool :=
  let h := hash_id &&& 0xFFFFFFFF
  let c := cum_prob &&& 0xFFFFFFFF
  let res := (c + (2^32 - h)) % 2^32
  let h_sign := _sign_bit h
  let c_sign := _sign_bit c
  let res_sign := _sign_bit res
  let msb : ℕ := if (c_sign = 0 ∧ h_sign = 0) ∨ (c_sign = 1 ∧ h_sign = 1) then 1 else 0
  decide ((c_sign = 0 ∧ h_sign = 1) ∨ (msb = 1 ∧ res_sign = 1))

/-- The three per-hop actions of the protocol. -/
inductive RecipeAction
  | ADD
  | REPLACE
  | SKIP
deriving DecidableEq

/-- Policy A, the plain unsigned threshold compare, as inlined in
decoding_murmur.py's simulate_xor_degree_distribution (and sim_murmur.py):
ADD if hash_id < add_thr, else REPLACE if hash_id > rep_thr, else SKIP. -/
def policyA (hash_id add_thr rep_thr : ℕ) : RecipeAction :=
  if hash_id < add_thr then .ADD
  else if rep_thr < hash_id then .REPLACE
  else .SKIP

/-- Policy B, the signed-subtraction emulation, as inlined in decoding.py's
reconstruct_xor_sets: ADD if _p4_add_decision, else REPLACE if
_p4_replace_decision, else SKIP. -/
def policyB (hash_id a_prob cum_prob : ℕ) : RecipeAction :=
  if _p4_add_decision hash_id a_prob then .ADD
  else if _p4_replace_decision hash_id cum_prob then .REPLACE
  else .SKIP

/-- Python int() truncation toward zero, on rationals. -/
def pyTrunc (q : ℚ) : ℤ := if q < 0 then -⌊-q⌋ else ⌊q⌋

namespace Decoding

/-- The fixed-point probability encoding from decoding.py's load_apa:
int(p * 2**32) & 0xFFFFFFFF.  The float multiplication p * 2**32 is exact for
any float p in [0,1) (a scaling by a power of two whose result stays below
2^32 < 2^53), so the parsed probability is modelled as the rational value of
that float; Python's & 0xFFFFFFFF on an int is reduction mod 2^32. -/
def fixedPoint32 (p : ℚ) : ℕ := (pyTrunc (p * 2^32) % (2^32 : ℤ)).toNat

/-- APA from decoding.py. -/
structure APA where
  max_hops : ℕ
  max_degree : ℕ
  probs_a : List ℕ
  probs_cum : List ℕ

/-- Inner loop of load_apa for one line: for d in range(len(parts) // 2),
store the encodings of parts[2d] and parts[2d+1] at index
hop_idx * max_degree + d of the two flattened arrays. -/
def fillLine (pa pc : List ℕ) (hop_idx max_degree : ℕ) (parts : List ℚ) : List ℕ × List ℕ :=
  (List.range (parts.length / 2)).foldl
    (fun ab d =>
      (ab.1.set (hop_idx * max_degree + d) (fixedPoint32 (parts.getD (2 * d) 0)),
       ab.2.set (hop_idx * max_degree + d) (fixedPoint32 (parts.getD (2 * d + 1) 0))))
    (pa, pc)

/-- Line loop of load_apa: raise (error with the 0-based index of the line
among the non-blank lines) if a line has an odd number of fields or more than
max_degree degree pairs, else fill the arrays. -/
def loadLines (max_degree : ℕ) : List (List ℚ) → ℕ → List ℕ × List ℕ → Except ℕ (List ℕ × List ℕ)
  | [], _, acc => .ok acc
  | parts :: rest, hop_idx, acc =>
    if parts.length % 2 ≠ 0 then .error hop_idx
    else if max_degree < parts.length / 2 then .error hop_idx
    else loadLines max_degree rest (hop_idx + 1) (fillLine acc.1 acc.2 hop_idx max_degree parts)

/-- load_apa from decoding.py.  The file has already been split into its
non-blank lines, each line into its non-empty comma-separated fields, and
each field parsed as a number (a rational standing for the parsed float);
max_hops is the number of non-blank lines and the two arrays start as
[0] * (max_hops * max_degree). -/
def load_apa (lines : List (List ℚ)) (max_degree : ℕ) : Except ℕ APA :=
  let max_hops := lines.length
  (loadLines max_degree lines 0
      (List.replicate (max_hops * max_degree) 0, List.replicate (max_hops * max_degree) 0)).map
    (fun pr =>
      { max_hops := max_hops, max_degree := max_degree, probs_a := pr.1, probs_cum := pr.2 })

end Decoding

namespace Murmur

/-- The fixed-point threshold encoding from decoding_murmur.py's load_apa:
int(raw * (2**32)) & 0xFFFFFFFF, under the same exact-float-scaling model as
the decoding.py variant. -/
def fixedPoint32 (p : ℚ) : ℕ := (pyTrunc (p * 2^32) % (2^32 : ℤ)).toNat

/-- APA from decoding_murmur.py / sim_murmur.py. -/
structure APA where
  max_hops : ℕ
  max_degree : ℕ
  add_thresh : List ℕ
  replace_thresh : List ℕ

/-- Inner loop of decoding_murmur.py's load_apa for one line. -/
def fillLine (ta tr : List ℕ) (hop_idx max_degree : ℕ) (parts : List ℚ) : List ℕ × List ℕ :=
  (List.range (parts.length / 2)).foldl
    (fun ab d =>
      (ab.1.set (hop_idx * max_degree + d) (fixedPoint32 (parts.getD (2 * d) 0)),
       ab.2.set (hop_idx * max_degree + d) (fixedPoint32 (parts.getD (2 * d + 1) 0))))
    (ta, tr)

/-- Line loop of decoding_murmur.py's load_apa. -/
def loadLines (max_degree : ℕ) : List (List ℚ) → ℕ → List ℕ × List ℕ → Except ℕ (List ℕ × List ℕ)
  | [], _, acc => .ok acc
  | parts :: rest, hop_idx, acc =>
    if parts.length % 2 ≠ 0 then .error hop_idx
    else if max_degree < parts.length / 2 then .error hop_idx
    else loadLines max_degree rest (hop_idx + 1) (fillLine acc.1 acc.2 hop_idx max_degree parts)

/-- load_apa from decoding_murmur.py, under the same input model as the
decoding.py variant. -/
def load_apa (lines : List (List ℚ)) (max_degree : ℕ) : Except ℕ APA :=
  let max_hops := lines.length
  (loadLines max_degree lines 0
      (List.replicate (max_hops * max_degree) 0, List.replicate (max_hops * max_degree) 0)).map
    (fun pr =>
      { max_hops := max_hops, max_degree := max_degree,
        add_thresh := pr.1, replace_thresh := pr.2 })

end Murmur

/-- PacketEquation: pktid, final accumulator and XOR-set of hop indices.
decoding.py and decoding_murmur.py declare this dataclass separately (the
former with an extra diagnostic simulated_degree field that its
solve_switch_ids never reads); the two solve_switch_ids functions are line
for line identical, so one embedding serves both. -/
structure PacketEquation where
  pktid : ℕ
  final_pint : ℕ
  xor_set : Finset ℕ

/-- The k-bit row mask of an equation, from solve_switch_ids:
mask |= 1 << i for each i in xor_set with 0 <= i < k; the OR of these
distinct powers of two is their sum. -/
def maskOf (s : Finset ℕ) (k : ℕ) : ℕ := ∑ i ∈ s.filter (· < k), 1 <<< i

/-- State of the per-bit-plane Gaussian elimination in solve_switch_ids:
the rows A and right-hand sides y kept in lock-step as (mask, y) pairs, the
pivot_row_for_col array (-1 meaning no pivot), and the current pivot row. -/
structure ElimState where
  rows : List (ℕ × ℕ)
  pivot_row_for_col : List ℤ
  rowPtr : ℕ

/-- Pivot search of solve_switch_ids: the first r in [rowPtr, m) with
(A[r] >> col) & 1 == 1, where fuel = m - rowPtr. -/
def findPivot (rows : List (ℕ × ℕ)) (col : ℕ) : ℕ → ℕ → Option ℕ
  | _, 0 => none
  | r, fuel + 1 =>
    if getBit (rows.getD r (0, 0)).1 col = 1 then some r else findPivot rows col (r + 1) fuel

/-- The simultaneous swap A[i], A[j] = A[j], A[i] (and y alongside). -/
def swapRows (l : List (ℕ × ℕ)) (i j : ℕ) : List (ℕ × ℕ) :=
  (l.set i (l.getD j (0, 0))).set j (l.getD i (0, 0))

/-- The inner elimination loop of solve_switch_ids: with prow = A[p0] (and its
right-hand side) fixed before the loop, XOR prow into every other row r with
(A[r] >> col) & 1 == 1, rhs in lock-step. -/
def elimRows (rows : List (ℕ × ℕ)) (p0 col : ℕ) : List (ℕ × ℕ) :=
  rows.mapIdx (fun r rw =>
    if r ≠ p0 ∧ getBit rw.1 col = 1
    then (rw.1 ^^^ (rows.getD p0 (0, 0)).1, rw.2 ^^^ (rows.getD p0 (0, 0)).2) else rw)

/-- One iteration of the column loop of solve_switch_ids: find a pivot at or
below rowPtr; if none, leave the state unchanged; otherwise swap it into
position rowPtr, record it, XOR the pivot row into every other row with bit
col set, and advance rowPtr.  The Bool is the row == m break. -/
def colStep (m col : ℕ) (st : ElimState) : ElimState × Bool :=
  match findPivot st.rows col st.rowPtr (m - st.rowPtr) with
  | none => (st, false)
  | some p =>
    let rows1 := swapRows st.rows st.rowPtr p
    (⟨elimRows rows1 st.rowPtr col, st.pivot_row_for_col.set col (st.rowPtr : ℤ), st.rowPtr + 1⟩,
     decide (st.rowPtr + 1 = m))

/-- The column loop for col in range(k), stopping when the break fires. -/
def elimCols (m : ℕ) : List ℕ → ElimState → ElimState
  | [], st => st
  | col :: rest, st =>
    match colStep m col st with
    | (st', brk) => if brk then st' else elimCols m rest st'

/-- Run the elimination of one bit-plane from the initial state
(A = masks, y = ys, pivot_row_for_col = [-1] * k, row = 0). -/
def gaussElim (masks ys : List ℕ) (k : ℕ) : ElimState :=
  elimCols masks.length (List.range k) ⟨masks.zip ys, List.replicate k (-1), 0⟩

/-- The post-elimination inconsistency scan of solve_switch_ids: some row has
an all-zero mask and right-hand side 1. -/
def inconsistentCheck (st : ElimState) : Bool :=
  st.rows.any (fun rw => rw.1 == 0 && rw.2 == 1)

/-- Back-substitution read-off of solve_switch_ids: x_bits[col] = y[r] & 1
for the pivot row r of col, 0 for non-pivot columns. -/
def xBits (st : ElimState) (k : ℕ) : List ℕ :=
  (List.range k).map (fun col =>
    let r := st.pivot_row_for_col.getD col (-1)
    if r ≠ -1 then (st.rows.getD r.toNat (0, 0)).2 &&& 1 else 0)

/-- The right-hand-side bit vector of one plane:
y = [(pint >> bit) & 1 for pint in pints]. -/
def ysAt (pints : List ℕ) (bit : ℕ) : List ℕ :=
  pints.map (fun pint => (pint >>> bit) &&& 1)

/-- Accumulation step of solve_switch_ids: switch_ids[i] |= 1 << bit
whenever x_bits[i] is truthy. -/
def accumulate (switch_ids x_bits : List ℕ) (bit : ℕ) : List ℕ :=
  switch_ids.mapIdx (fun i v => if x_bits.getD i 0 ≠ 0 then v ||| (1 <<< bit) else v)

/-- The for bit in range(id_bits) loop of solve_switch_ids, reporting the
bit-plane at which the system was found inconsistent. -/
def solveBits (masks pints : List ℕ) (k : ℕ) : List ℕ → List ℕ → Except ℕ (List ℕ)
  | [], switch_ids => .ok switch_ids
  | bit :: rest, switch_ids =>
    let ys := ysAt pints bit
    let st := gaussElim masks ys k
    if inconsistentCheck st then .error bit
    else solveBits masks pints k rest (accumulate switch_ids (xBits st k) bit)

/-- The mask-building loop of solve_switch_ids over the equation list. -/
def eqMasks (eqs : List PacketEquation) (k : ℕ) : List ℕ :=
  eqs.map (fun eq => maskOf eq.xor_set k)

/-- The right-hand-side source values of solve_switch_ids, one per equation. -/
def eqPints (eqs : List PacketEquation) : List ℕ :=
  eqs.map (fun eq => eq.final_pint)

/-- solve_switch_ids (identical in decoding.py and decoding_murmur.py).
The Python function returns None on failure and prints the failing bit-plane;
here .error none is the empty-equation-list early None and .error (some bit)
the inconsistency abort at plane bit. -/
def solve_switch_ids (eqs : List PacketEquation) (num_hops id_bits : ℕ) :
    Except (Option ℕ) (List ℕ) :=
  if eqs.length = 0 then .error none
  else
    match solveBits (eqMasks eqs num_hops) (eqPints eqs) num_hops
        (List.range id_bits) (List.replicate num_hops 0) with
    | .error bit => .error (some bit)
    | .ok ids => .ok ids

namespace Murmur

/-- Hop loop of simulate_xor_degree_distribution (decoding_murmur.py,
generation mode) for one packet: state (xor_degree, xor_set, pint); stop when
the APA index leaves the loaded array; otherwise ADD / REPLACE / SKIP by the
plain threshold compares.  Note ADD increments xor_degree without a modulo. -/
def simGo (apa : APA) (switch_id : List ℕ) (max_degree pktid : ℕ) :
    List ℕ → ℕ × Finset ℕ × ℕ → ℕ × Finset ℕ × ℕ
  | [], st => st
  | hopid :: rest, (xor_degree, xor_set, pint) =>
    let idx := hopid * max_degree + xor_degree
    if apa.add_thresh.length ≤ idx then (xor_degree, xor_set, pint)
    else
      let add_thr := apa.add_thresh.getD idx 0
      let rep_thr := apa.replace_thresh.getD idx 0
      let hash_id := recipe_hash_v4 pktid hopid &&& 0xFFFFFFFF
      if hash_id < add_thr then
        simGo apa switch_id max_degree pktid rest
          (xor_degree + 1, insert hopid xor_set, pint ^^^ switch_id.getD hopid 0)
      else if rep_thr < hash_id then
        simGo apa switch_id max_degree pktid rest (1, {hopid}, switch_id.getD hopid 0)
      else
        simGo apa switch_id max_degree pktid rest (xor_degree, xor_set, pint)

/-- One packet of the generation-mode simulator: hops 0..num_hops-1 from the
initial state (0, empty set, 0). -/
def simulatePacket (apa : APA) (switch_id : List ℕ) (num_hops max_degree pktid : ℕ) :
    ℕ × Finset ℕ × ℕ :=
  simGo apa switch_id max_degree pktid (List.range num_hops) (0, ∅, 0)

/-- The equation list built by simulate_xor_degree_distribution for pktid in
range(num_packets), with the ground-truth identifier vector switch_id passed
in explicitly (the source draws it from a seeded RNG before the loop). -/
def simulate_equations (num_packets : ℕ) (apa : APA) (num_hops max_degree : ℕ)
    (switch_id : List ℕ) : List PacketEquation :=
  (List.range num_packets).map (fun pktid =>
    let st := simulatePacket apa switch_id num_hops max_degree pktid
    { pktid := pktid, final_pint := st.2.2, xor_set := st.2.1 })

end Murmur

namespace Decoding

/-- Hop loop of reconstruct_xor_sets (decoding.py, decode mode) for one
packet: state (xor_degree, xor_set); stop when the APA index leaves the
loaded array; ADD toggles membership and increments xor_degree modulo
max_degree, REPLACE resets to ({hopid}, 1), SKIP leaves the state.  The hash
parameter stands for the recipe_hash_v4(pktid, hopid) call of the source, so
every theorem below holds for whatever values that call returns. -/
def reconstructGo (hash : ℕ → ℕ → ℕ) (apa : APA) (max_degree pktid : ℕ) :
    List ℕ → ℕ × Finset ℕ → ℕ × Finset ℕ
  | [], st => st
  | hopid :: rest, (xor_degree, xor_set) =>
    let idx := hopid * max_degree + xor_degree
    if apa.probs_a.length ≤ idx then (xor_degree, xor_set)
    else
      let a_prob := apa.probs_a.getD idx 0
      let cum_prob := apa.probs_cum.getD idx 0
      let hash_id := hash pktid hopid
      if _p4_add_decision hash_id a_prob then
        reconstructGo hash apa max_degree pktid rest
          ((xor_degree + 1) % max_degree,
           if hopid ∈ xor_set then xor_set.erase hopid else insert hopid xor_set)
      else if _p4_replace_decision hash_id cum_prob then
        reconstructGo hash apa max_degree pktid rest (1, {hopid})
      else
        reconstructGo hash apa max_degree pktid rest (xor_degree, xor_set)

end Decoding

/-! ### Bit-level basics -/

theorem getBit_eq_testBit (x i : ℕ) : getBit x i = (x.testBit i).toNat := by
  rw [getBit, Nat.and_one_is_mod, Nat.shiftRight_eq_div_pow, Nat.testBit_to_div_mod]
  rcases Nat.mod_two_eq_zero_or_one (x / 2 ^ i) with h | h <;> simp [h]

theorem getBit_le_one (x i : ℕ) : getBit x i ≤ 1 := by
  rw [getBit_eq_testBit]; cases x.testBit i <;> simp

theorem getBit_eq_one_iff (x i : ℕ) : getBit x i = 1 ↔ x.testBit i = true := by
  rw [getBit_eq_testBit]; cases x.testBit i <;> simp

theorem getBit_eq_zero_iff (x i : ℕ) : getBit x i = 0 ↔ x.testBit i = false := by
  rw [getBit_eq_testBit]; cases x.testBit i <;> simp

theorem getBit_zero (i : ℕ) : getBit 0 i = 0 := by
  rw [getBit_eq_zero_iff]; exact Nat.zero_testBit i

theorem getBit_xor (a b i : ℕ) : getBit (a ^^^ b) i = (getBit a i + getBit b i) % 2 := by
  rw [getBit_eq_testBit, getBit_eq_testBit, getBit_eq_testBit, Nat.testBit_xor]
  cases a.testBit i <;> cases b.testBit i <;> rfl

theorem xor_lt_two_pow {a b k : ℕ} (ha : a < 2 ^ k) (hb : b < 2 ^ k) : a ^^^ b < 2 ^ k :=
  Nat.xor_lt_two_pow ha hb

theorem eq_zero_of_getBit_lt {M k : ℕ} (hlt : M < 2 ^ k)
    (h : ∀ c < k, getBit M c = 0) : M = 0 := by
  apply Nat.eq_of_testBit_eq
  intro i
  rw [Nat.zero_testBit]
  by_cases hik : i < k
  · rw [← getBit_eq_zero_iff]; exact h i hik
  · exact Nat.testBit_lt_two_pow (lt_of_lt_of_le hlt (Nat.pow_le_pow_right (by norm_num) (le_of_not_lt hik)))

/-! ### The row mask of an equation -/

theorem testBit_add_two_pow {m : ℕ} (kk j : ℕ) (hm : m < 2 ^ kk) :
    (m + 2 ^ kk).testBit j = (if j = kk then true else m.testBit j) := by
  rcases lt_trichotomy j kk with hj | hj | hj
  · have hdvd : (2 : ℕ) ^ kk = 2 ^ (kk - j) * 2 ^ j := by
      rw [← pow_add]; congr 1; omega
    rw [if_neg (by omega), Nat.testBit_to_div_mod, Nat.testBit_to_div_mod, hdvd,
      Nat.add_mul_div_right _ _ (Nat.pos_pow_of_pos j (by norm_num))]
    have h2 : (2 : ℕ) ^ (kk - j) = 2 * 2 ^ (kk - j - 1) := by
      rw [← pow_succ']; congr 1; omega
    rw [h2, Nat.add_mul_mod_self_left]
  · subst hj
    rw [if_pos rfl, Nat.testBit_to_div_mod]
    have hdiv : (m + 2 ^ j) / 2 ^ j = m / 2 ^ j + 1 := by
      rw [Nat.add_div_right _ (Nat.pos_pow_of_pos j (by norm_num))]
    rw [hdiv, Nat.div_eq_of_lt hm]
    decide
  · rw [if_neg (by omega)]
    have h1 : m + 2 ^ kk < 2 ^ j := by
      have hle : (2 : ℕ) ^ (kk + 1) ≤ 2 ^ j := Nat.pow_le_pow_right (by norm_num) (by omega)
      have : m + 2 ^ kk < 2 ^ (kk + 1) := by
        have : (2 : ℕ) ^ (kk + 1) = 2 ^ kk + 2 ^ kk := by ring
        omega
      omega
    have h2 : m < 2 ^ j := by omega
    rw [Nat.testBit_lt_two_pow h1, Nat.testBit_lt_two_pow h2]

theorem filter_lt_succ (s : Finset ℕ) (n : ℕ) :
    s.filter (· < n + 1) = if n ∈ s then insert n (s.filter (· < n)) else s.filter (· < n) := by
  classical
  by_cases hn : n ∈ s
  · rw [if_pos hn]
    ext a
    simp only [Finset.mem_filter, Finset.mem_insert]
    constructor
    · rintro ⟨ha, hlt⟩
      by_cases h : a = n
      · exact Or.inl h
      · exact Or.inr ⟨ha, by omega⟩
    · rintro (rfl | ⟨ha, hlt⟩)
      · exact ⟨hn, by omega⟩
      · exact ⟨ha, by omega⟩
  · rw [if_neg hn]
    ext a
    simp only [Finset.mem_filter]
    constructor
    · rintro ⟨ha, hlt⟩
      refine ⟨ha, ?_⟩
      by_cases h : a = n
      · subst h; exact absurd ha hn
      · omega
    · rintro ⟨ha, hlt⟩
      exact ⟨ha, by omega⟩

theorem maskOf_lt_two_pow (s : Finset ℕ) (k : ℕ) : maskOf s k < 2 ^ k := by
  classical
  induction k with
  | zero => simp [maskOf]
  | succ n ih =>
    rw [maskOf, filter_lt_succ]
    rw [maskOf] at ih
    split
    · rw [Finset.sum_insert (by simp)]
      have h2 : (1 <<< n : ℕ) = 2 ^ n := Nat.one_shiftLeft n
      have h3 : (2 : ℕ) ^ (n + 1) = 2 ^ n + 2 ^ n := by ring
      omega
    · have h2 : (2 : ℕ) ^ n ≤ 2 ^ (n + 1) := Nat.pow_le_pow_right (by norm_num) (by omega)
      omega

theorem maskOf_testBit (s : Finset ℕ) (k j : ℕ) :
    (maskOf s k).testBit j = (decide (j ∈ s) && decide (j < k)) := by
  classical
  induction k with
  | zero => simp [maskOf]
  | succ n ih =>
    by_cases hn : n ∈ s
    · rw [maskOf, filter_lt_succ, if_pos hn, Finset.sum_insert (by simp), Nat.one_shiftLeft,
        Nat.add_comm]
      have hmask := maskOf_lt_two_pow s n
      rw [maskOf] at hmask
      rw [testBit_add_two_pow n j hmask]
      by_cases hj : j = n
      · subst hj; simp [hn]
      · rw [if_neg hj]
        have hih : (maskOf s n).testBit j = (decide (j ∈ s) && decide (j < n)) := ih
        rw [maskOf] at hih
        rw [hih]
        by_cases hjs : j ∈ s
        · congr 1
          simp only [decide_eq_decide]
          omega
        · simp [hjs]
    · rw [maskOf, filter_lt_succ, if_neg hn]
      have hih : (maskOf s n).testBit j = (decide (j ∈ s) && decide (j < n)) := ih
      rw [maskOf] at hih
      rw [hih]
      by_cases hjs : j ∈ s
      · have hj : j ≠ n := fun h => hn (h ▸ hjs)
        congr 1
        simp only [decide_eq_decide]
        omega
      · simp [hjs]

theorem getBit_maskOf (s : Finset ℕ) (k j : ℕ) :
    getBit (maskOf s k) j = if j ∈ s ∧ j < k then 1 else 0 := by
  rw [getBit_eq_testBit, maskOf_testBit]
  by_cases h1 : j ∈ s <;> by_cases h2 : j < k <;> simp [h1, h2]

/-! ### GF(2) semantics of rows and solutions -/

/-- Bit i of x viewed in GF(2). -/
def bitZ (x i : ℕ) : ZMod 2 := (getBit x i : ℕ)

/-- GF(2) dot product of the low k bits of the mask m with an assignment x of
the unknowns. -/
def dotZ (k m : ℕ) (x : ℕ → ZMod 2) : ZMod 2 := ∑ i ∈ Finset.range k, bitZ m i * x i

/-- Row i of the elimination (mask, rhs) list, defaulting to (0, 0). -/
def rowVal (rows : List (ℕ × ℕ)) (i : ℕ) : ℕ × ℕ := rows.getD i (0, 0)

/-- x satisfies every (mask, rhs) row of the list over the low k bits. -/
def satRows (k : ℕ) (rows : List (ℕ × ℕ)) (x : ℕ → ZMod 2) : Prop :=
  ∀ i < rows.length, dotZ k (rowVal rows i).1 x = ((rowVal rows i).2 : ZMod 2)

theorem natCast_xor_of_le_one {a b : ℕ} (ha : a ≤ 1) (hb : b ≤ 1) :
    ((a ^^^ b : ℕ) : ZMod 2) = (a : ZMod 2) + b := by
  interval_cases a <;> interval_cases b <;> decide

theorem bitZ_xor (a b i : ℕ) : bitZ (a ^^^ b) i = bitZ a i + bitZ b i := by
  rw [bitZ, bitZ, bitZ, getBit_xor, ZMod.natCast_mod]
  push_cast
  ring

theorem bitZ_zero (i : ℕ) : bitZ 0 i = 0 := by
  rw [bitZ, getBit_zero]; rfl

theorem dotZ_xor (k a b : ℕ) (x : ℕ → ZMod 2) :
    dotZ k (a ^^^ b) x = dotZ k a x + dotZ k b x := by
  rw [dotZ, dotZ, dotZ, ← Finset.sum_add_distrib]
  apply Finset.sum_congr rfl
  intro i _
  rw [bitZ_xor]; ring

theorem dotZ_zero_mask (k : ℕ) (x : ℕ → ZMod 2) : dotZ k 0 x = 0 := by
  rw [dotZ]
  apply Finset.sum_eq_zero
  intro i _
  rw [bitZ_zero]; ring

theorem dotZ_maskOf (s : Finset ℕ) (k : ℕ) (x : ℕ → ZMod 2) :
    dotZ k (maskOf s k) x = ∑ i ∈ s.filter (· < k), x i := by
  classical
  have hset : (Finset.range k).filter (fun i => i ∈ s) = s.filter (fun i => i < k) := by
    ext a
    simp only [Finset.mem_filter, Finset.mem_range]
    exact ⟨fun h => ⟨h.2, h.1⟩, fun h => ⟨h.2, h.1⟩⟩
  rw [dotZ, ← hset, Finset.sum_filter]
  apply Finset.sum_congr rfl
  intro i hi
  have hik : i < k := Finset.mem_range.mp hi
  rw [bitZ, getBit_maskOf]
  by_cases hmem : i ∈ s
  · rw [if_pos ⟨hmem, hik⟩, if_pos hmem]
    push_cast
    ring
  · rw [if_neg (fun hc => hmem hc.1), if_neg hmem]
    push_cast
    ring

theorem zmod_two_add_self (a : ZMod 2) : a + a = 0 := by
  revert a; decide

/-! ### List access helpers for the elimination state -/

theorem rowVal_lt {rows : List (ℕ × ℕ)} {i : ℕ} (h : i < rows.length) :
    rowVal rows i = rows[i] := by
  rw [rowVal, List.getD_eq_getElem?_getD, List.getElem?_eq_getElem h]
  rfl

theorem rowVal_ge {rows : List (ℕ × ℕ)} {i : ℕ} (h : rows.length ≤ i) :
    rowVal rows i = (0, 0) := by
  rw [rowVal, List.getD_eq_getElem?_getD, List.getElem?_eq_none h]
  rfl

theorem rowVal_set_self {rows : List (ℕ × ℕ)} {i : ℕ} (v : ℕ × ℕ) (h : i < rows.length) :
    rowVal (rows.set i v) i = v := by
  rw [rowVal, List.getD_eq_getElem?_getD, List.getElem?_set_self h]
  rfl

theorem rowVal_set_ne {rows : List (ℕ × ℕ)} {i j : ℕ} (v : ℕ × ℕ) (h : i ≠ j) :
    rowVal (rows.set i v) j = rowVal rows j := by
  rw [rowVal, rowVal, List.getD_eq_getElem?_getD, List.getD_eq_getElem?_getD,
    List.getElem?_set_ne h]

theorem length_swapRows (l : List (ℕ × ℕ)) (i j : ℕ) :
    (swapRows l i j).length = l.length := by
  rw [swapRows, List.length_set, List.length_set]

theorem rowVal_swapRows {l : List (ℕ × ℕ)} {i j : ℕ} (hi : i < l.length) (hj : j < l.length)
    (n : ℕ) : rowVal (swapRows l i j) n =
      if n = j then rowVal l i else if n = i then rowVal l j else rowVal l n := by
  rw [swapRows]
  by_cases hnj : n = j
  · subst hnj
    rw [if_pos rfl]
    exact rowVal_set_self _ (by rw [List.length_set]; exact hj)
  · rw [if_neg hnj, rowVal_set_ne _ (fun h => hnj h.symm)]
    by_cases hni : n = i
    · subst hni
      rw [if_pos rfl]
      exact rowVal_set_self _ hi
    · rw [if_neg hni, rowVal_set_ne _ (fun h => hni h.symm)]

theorem length_elimRows (rows : List (ℕ × ℕ)) (p0 col : ℕ) :
    (elimRows rows p0 col).length = rows.length := by
  rw [elimRows, List.length_mapIdx]

theorem rowVal_elimRows {rows : List (ℕ × ℕ)} {n p0 col : ℕ} (h : n < rows.length) :
    rowVal (elimRows rows p0 col) n =
      if n ≠ p0 ∧ getBit (rowVal rows n).1 col = 1
      then ((rowVal rows n).1 ^^^ (rowVal rows p0).1, (rowVal rows n).2 ^^^ (rowVal rows p0).2)
      else rowVal rows n := by
  rw [elimRows, rowVal, List.getD_eq_getElem?_getD, List.getElem?_mapIdx,
    List.getElem?_eq_getElem h, Option.map_some', Option.getD_some, ← rowVal_lt h]
  rfl

theorem rowVal_elimRows_pivot {rows : List (ℕ × ℕ)} {p0 : ℕ} (col : ℕ) (h : p0 < rows.length) :
    rowVal (elimRows rows p0 col) p0 = rowVal rows p0 := by
  rw [rowVal_elimRows h, if_neg]
  rintro ⟨hne, _⟩
  exact hne rfl

theorem getD_replicate_lt {α : Type} {n i : ℕ} (a d : α) (h : i < n) :
    (List.replicate n a).getD i d = a := by
  rw [List.getD_eq_getElem?_getD,
    List.getElem?_eq_getElem (by rw [List.length_replicate]; exact h),
    List.getElem_replicate]
  rfl

theorem rowVal_zip {ms ys : List ℕ} {i : ℕ} (hm : i < ms.length) (hy : i < ys.length) :
    rowVal (ms.zip ys) i = (ms.getD i 0, ys.getD i 0) := by
  have hlen : i < (ms.zip ys).length := by
    rw [List.length_zip]
    exact lt_min hm hy
  rw [rowVal_lt hlen, List.getElem_zip]
  rw [List.getD_eq_getElem?_getD, List.getD_eq_getElem?_getD,
    List.getElem?_eq_getElem hm, List.getElem?_eq_getElem hy]
  rfl

/-! ### Preservation of row-wise properties through the elimination steps -/

/-- Every row of the list satisfies P. -/
def rowsAll (P : ℕ × ℕ → Prop) (rows : List (ℕ × ℕ)) : Prop :=
  ∀ i < rows.length, P (rowVal rows i)

theorem rowsAll_swap {P : ℕ × ℕ → Prop} {rows : List (ℕ × ℕ)} {i j : ℕ}
    (hi : i < rows.length) (hj : j < rows.length) (h : rowsAll P rows) :
    rowsAll P (swapRows rows i j) := by
  intro n hn
  rw [length_swapRows] at hn
  rw [rowVal_swapRows hi hj]
  by_cases hnj : n = j
  · rw [if_pos hnj]; exact h i hi
  · rw [if_neg hnj]
    by_cases hni : n = i
    · rw [if_pos hni]; exact h j hj
    · rw [if_neg hni]; exact h n hn

theorem rowsAll_elimRows {P : ℕ × ℕ → Prop} {rows : List (ℕ × ℕ)} {p0 : ℕ} (col : ℕ)
    (hp0 : p0 < rows.length)
    (hP : ∀ a b : ℕ × ℕ, P a → P b → P (a.1 ^^^ b.1, a.2 ^^^ b.2))
    (h : rowsAll P rows) : rowsAll P (elimRows rows p0 col) := by
  intro n hn
  rw [length_elimRows] at hn
  rw [rowVal_elimRows hn]
  split
  · exact hP _ _ (h n hn) (h p0 hp0)
  · exact h n hn

/-- All right-hand sides are bits (0 or 1). -/
def ywf (rows : List (ℕ × ℕ)) : Prop := rowsAll (fun rw => rw.2 ≤ 1) rows

theorem satRows_swap_iff {k : ℕ} {rows : List (ℕ × ℕ)} {x : ℕ → ZMod 2} {i j : ℕ}
    (hi : i < rows.length) (hj : j < rows.length) :
    satRows k (swapRows rows i j) x ↔ satRows k rows x := by
  constructor
  · intro hs n hn
    by_cases hni : n = i
    · have hh := hs j (by rw [length_swapRows]; exact hj)
      rw [rowVal_swapRows hi hj, if_pos rfl] at hh
      rwa [hni]
    · by_cases hnj : n = j
      · have hh := hs i (by rw [length_swapRows]; exact hi)
        rw [rowVal_swapRows hi hj] at hh
        by_cases hij : i = j
        · rw [if_pos hij] at hh
          rwa [hnj, ← hij]
        · rw [if_neg hij, if_pos rfl] at hh
          rwa [hnj]
      · have hh := hs n (by rw [length_swapRows]; exact hn)
        rwa [rowVal_swapRows hi hj, if_neg hnj, if_neg hni] at hh
  · intro hs n hn
    rw [length_swapRows] at hn
    rw [rowVal_swapRows hi hj]
    by_cases hnj : n = j
    · rw [if_pos hnj]; exact hs i hi
    · rw [if_neg hnj]
      by_cases hni : n = i
      · rw [if_pos hni]; exact hs j hj
      · rw [if_neg hni]; exact hs n hn

theorem satRows_elimRows_iff {k : ℕ} {rows : List (ℕ × ℕ)} {p0 col : ℕ} {x : ℕ → ZMod 2}
    (hp0 : p0 < rows.length) (hy : ywf rows) :
    satRows k (elimRows rows p0 col) x ↔ satRows k rows x := by
  constructor
  · intro hs n hn
    have hpr : dotZ k (rowVal rows p0).1 x = ((rowVal rows p0).2 : ZMod 2) := by
      have hh := hs p0 (by rw [length_elimRows]; exact hp0)
      rwa [rowVal_elimRows_pivot col hp0] at hh
    have hh := hs n (by rw [length_elimRows]; exact hn)
    rw [rowVal_elimRows hn] at hh
    by_cases hcond : n ≠ p0 ∧ getBit (rowVal rows n).1 col = 1
    · rw [if_pos hcond] at hh
      simp only at hh
      rw [dotZ_xor, natCast_xor_of_le_one (hy n hn) (hy p0 hp0), hpr] at hh
      exact add_right_cancel hh
    · rwa [if_neg hcond] at hh
  · intro hs n hn
    rw [length_elimRows] at hn
    rw [rowVal_elimRows hn]
    by_cases hcond : n ≠ p0 ∧ getBit (rowVal rows n).1 col = 1
    · rw [if_pos hcond]
      simp only
      rw [dotZ_xor, natCast_xor_of_le_one (hy n hn) (hy p0 hp0), hs n hn, hs p0 hp0]
    · rw [if_neg hcond]
      exact hs n hn

/-! ### Pivot search characterisation -/

theorem getBit_eq_zero_of_ne_one {x i : ℕ} (h : getBit x i ≠ 1) : getBit x i = 0 := by
  have := getBit_le_one x i
  omega

theorem findPivot_none {rows : List (ℕ × ℕ)} {col : ℕ} :
    ∀ {fuel r : ℕ}, findPivot rows col r fuel = none →
      ∀ i, r ≤ i → i < r + fuel → getBit (rowVal rows i).1 col = 0 := by
  intro fuel
  induction fuel with
  | zero => intro r _ i h1 h2; omega
  | succ n ih =>
    intro r hf i h1 h2
    rw [findPivot] at hf
    by_cases hbit : getBit (rows.getD r (0, 0)).1 col = 1
    · rw [if_pos hbit] at hf
      exact absurd hf (by simp)
    · rw [if_neg hbit] at hf
      by_cases hir : i = r
      · subst hir
        exact getBit_eq_zero_of_ne_one hbit
      · exact ih hf i (by omega) (by omega)

theorem findPivot_some {rows : List (ℕ × ℕ)} {col : ℕ} :
    ∀ {fuel r p : ℕ}, findPivot rows col r fuel = some p →
      r ≤ p ∧ p < r + fuel ∧ getBit (rowVal rows p).1 col = 1 ∧
        ∀ i, r ≤ i → i < p → getBit (rowVal rows i).1 col = 0 := by
  intro fuel
  induction fuel with
  | zero => intro r p h; exact absurd h (by rw [findPivot]; simp)
  | succ n ih =>
    intro r p hf
    rw [findPivot] at hf
    by_cases hbit : getBit (rows.getD r (0, 0)).1 col = 1
    · rw [if_pos hbit] at hf
      have hp : p = r := by
        have := Option.some_injective _ hf.symm
        omega
      subst hp
      exact ⟨le_refl _, by omega, hbit, fun i h1 h2 => by omega⟩
    · rw [if_neg hbit] at hf
      obtain ⟨h1, h2, h3, h4⟩ := ih hf
      refine ⟨by omega, by omega, h3, ?_⟩
      intro i hi1 hi2
      by_cases hir : i = r
      · subst hir
        exact getBit_eq_zero_of_ne_one hbit
      · exact h4 i (by omega) hi2

/-! ### The elimination loop invariant -/

/-- Invariant of the column loop of solve_switch_ids, holding at the start of
the iteration for column col (for the bit-plane being solved):
lengths and the row pointer are in range; masks stay k-bit and right-hand
sides stay bits; columns at or after col have no pivot yet; every recorded
pivot row is below the row pointer; every row below the row pointer is some
column's pivot row; a pivot row has bit 1 in its own column and bit 0 in
every other pivoted column; and the rows at or after the row pointer have
bit 0 in every column before col. -/
structure ElimInv (k m col : ℕ) (st : ElimState) : Prop where
  len_rows : st.rows.length = m
  len_piv : st.pivot_row_for_col.length = k
  row_le : st.rowPtr ≤ m
  mask_lt : rowsAll (fun rw => rw.1 < 2 ^ k) st.rows
  y_le : ywf st.rows
  piv_unassigned : ∀ c : ℕ, col ≤ c → st.pivot_row_for_col.getD c (-1) = -1
  piv_assigned : ∀ c : ℕ, st.pivot_row_for_col.getD c (-1) ≠ -1 →
    ∃ r : ℕ, st.pivot_row_for_col.getD c (-1) = (r : ℤ) ∧ r < st.rowPtr
  piv_surj : ∀ r : ℕ, r < st.rowPtr →
    ∃ c : ℕ, c < col ∧ st.pivot_row_for_col.getD c (-1) = (r : ℤ)
  piv_bit : ∀ c r : ℕ, st.pivot_row_for_col.getD c (-1) = (r : ℤ) →
    getBit (rowVal st.rows r).1 c = 1 ∧
      ∀ c' : ℕ, c' ≠ c → st.pivot_row_for_col.getD c' (-1) ≠ -1 →
        getBit (rowVal st.rows r).1 c' = 0
  unproc : ∀ i : ℕ, st.rowPtr ≤ i → i < m → ∀ c < col, getBit (rowVal st.rows i).1 c = 0

/-- What survives of the invariant when the loop is done (either all columns
processed or the row == m break fired): enough to read the solution off and
to classify every row as a pivot row or an all-zero row. -/
structure PostInv (k m : ℕ) (st : ElimState) : Prop where
  len_rows : st.rows.length = m
  len_piv : st.pivot_row_for_col.length = k
  y_le : ywf st.rows
  piv_assigned : ∀ c : ℕ, st.pivot_row_for_col.getD c (-1) ≠ -1 →
    ∃ r : ℕ, st.pivot_row_for_col.getD c (-1) = (r : ℤ) ∧ r < m
  piv_bit : ∀ c r : ℕ, st.pivot_row_for_col.getD c (-1) = (r : ℤ) →
    getBit (rowVal st.rows r).1 c = 1 ∧
      ∀ c' : ℕ, c' ≠ c → st.pivot_row_for_col.getD c' (-1) ≠ -1 →
        getBit (rowVal st.rows r).1 c' = 0
  rows_classified : ∀ i : ℕ, i < m →
    (∃ c : ℕ, st.pivot_row_for_col.getD c (-1) = (i : ℤ)) ∨ (rowVal st.rows i).1 = 0

theorem postInv_of_break {k m col : ℕ} {st : ElimState} (hinv : ElimInv k m col st)
    (hbrk : st.rowPtr = m) : PostInv k m st := by
  refine ⟨hinv.len_rows, hinv.len_piv, hinv.y_le, ?_, hinv.piv_bit, ?_⟩
  · intro c hc
    obtain ⟨r, hr, hlt⟩ := hinv.piv_assigned c hc
    exact ⟨r, hr, by omega⟩
  · intro i hi
    obtain ⟨c, _, hc⟩ := hinv.piv_surj i (by omega)
    exact Or.inl ⟨c, hc⟩

theorem postInv_of_done {k m : ℕ} {st : ElimState} (hinv : ElimInv k m k st) :
    PostInv k m st := by
  refine ⟨hinv.len_rows, hinv.len_piv, hinv.y_le, ?_, hinv.piv_bit, ?_⟩
  · intro c hc
    obtain ⟨r, hr, hlt⟩ := hinv.piv_assigned c hc
    have hrm := hinv.row_le
    exact ⟨r, hr, by omega⟩
  · intro i hi
    by_cases hiptr : i < st.rowPtr
    · obtain ⟨c, _, hc⟩ := hinv.piv_surj i hiptr
      exact Or.inl ⟨c, hc⟩
    · refine Or.inr ?_
      apply eq_zero_of_getBit_lt (hinv.mask_lt i (by rw [hinv.len_rows]; exact hi))
      intro c hck
      exact hinv.unproc i (by omega) hi c hck

theorem xor_le_one {a b : ℕ} (ha : a ≤ 1) (hb : b ≤ 1) : a ^^^ b ≤ 1 := by
  interval_cases a <;> interval_cases b <;> decide

theorem getD_set_self' {α : Type} {l : List α} {i : ℕ} (v d : α) (h : i < l.length) :
    (l.set i v).getD i d = v := by
  rw [List.getD_eq_getElem?_getD, List.getElem?_set_self h]
  rfl

theorem getD_set_ne' {α : Type} {l : List α} {i j : ℕ} (v d : α) (h : i ≠ j) :
    (l.set i v).getD j d = l.getD j d := by
  rw [List.getD_eq_getElem?_getD, List.getD_eq_getElem?_getD, List.getElem?_set_ne h]

theorem getD_ge' {α : Type} {l : List α} {i : ℕ} (d : α) (h : l.length ≤ i) :
    l.getD i d = d := by
  rw [List.getD_eq_getElem?_getD, List.getElem?_eq_none h]
  rfl

theorem elimInv_step_none {k m col : ℕ} {st : ElimState} (hinv : ElimInv k m col st)
    (hf : findPivot st.rows col st.rowPtr (m - st.rowPtr) = none) :
    ElimInv k m (col + 1) st := by
  have hrow := hinv.row_le
  refine ⟨hinv.len_rows, hinv.len_piv, hinv.row_le, hinv.mask_lt, hinv.y_le, ?_, hinv.piv_assigned,
    ?_, hinv.piv_bit, ?_⟩
  · intro c hc
    by_cases hcc : c = col
    · subst hcc
      exact hinv.piv_unassigned c (le_refl _)
    · exact hinv.piv_unassigned c (by omega)
  · intro r hr
    obtain ⟨c, hc1, hc2⟩ := hinv.piv_surj r hr
    exact ⟨c, by omega, hc2⟩
  · intro i hi1 hi2 c hc
    by_cases hcc : c = col
    · subst hcc
      exact findPivot_none hf i hi1 (by omega)
    · exact hinv.unproc i hi1 hi2 c (by omega)

theorem elimInv_step_some {k m col p : ℕ} {st : ElimState} (hinv : ElimInv k m col st)
    (hcol : col < k)
    (hf : findPivot st.rows col st.rowPtr (m - st.rowPtr) = some p) :
    ElimInv k m (col + 1)
      ⟨elimRows (swapRows st.rows st.rowPtr p) st.rowPtr col,
       st.pivot_row_for_col.set col (st.rowPtr : ℤ), st.rowPtr + 1⟩ := by
  obtain ⟨hpl, hpu, hpbit, _⟩ := findPivot_some hf
  have hrow := hinv.row_le
  have hpm : p < m := by omega
  have hρm : st.rowPtr < m := by omega
  have hρlen : st.rowPtr < st.rows.length := by rw [hinv.len_rows]; exact hρm
  have hplen : p < st.rows.length := by rw [hinv.len_rows]; exact hpm
  have hlen1 : (swapRows st.rows st.rowPtr p).length = m := by
    rw [length_swapRows, hinv.len_rows]
  have hρlen1 : st.rowPtr < (swapRows st.rows st.rowPtr p).length := by rw [hlen1]; exact hρm
  -- the pivot row after the swap is the old row p
  have hprow : rowVal (swapRows st.rows st.rowPtr p) st.rowPtr = rowVal st.rows p := by
    rw [rowVal_swapRows hρlen hplen]
    by_cases hpp : st.rowPtr = p
    · rw [if_pos hpp, hpp]
    · rw [if_neg hpp, if_pos rfl]
  -- rows at index < rowPtr are untouched by the swap
  have hlow : ∀ n, n < st.rowPtr → rowVal (swapRows st.rows st.rowPtr p) n = rowVal st.rows n := by
    intro n hn
    rw [rowVal_swapRows hρlen hplen, if_neg (by omega), if_neg (by omega)]
  -- rows at index ≥ rowPtr are a permutation of the old unprocessed rows
  have hhigh : ∀ n, st.rowPtr ≤ n → n < m →
      ∃ n0, st.rowPtr ≤ n0 ∧ n0 < m ∧
        rowVal (swapRows st.rows st.rowPtr p) n = rowVal st.rows n0 := by
    intro n hn1 hn2
    rw [rowVal_swapRows hρlen hplen]
    by_cases hnp : n = p
    · exact ⟨st.rowPtr, le_refl _, hρm, by rw [if_pos hnp]⟩
    · by_cases hnρ : n = st.rowPtr
      · exact ⟨p, hpl, hpm, by rw [if_neg hnp, if_pos hnρ]⟩
      · exact ⟨n, hn1, hn2, by rw [if_neg hnp, if_neg hnρ]⟩
  have hlen2 : (elimRows (swapRows st.rows st.rowPtr p) st.rowPtr col).length = m := by
    rw [length_elimRows, hlen1]
  have hunp : ∀ n0, st.rowPtr ≤ n0 → n0 < m → ∀ c < col, getBit (rowVal st.rows n0).1 c = 0 :=
    hinv.unproc
  have hval2 : ∀ n, n < m →
      rowVal (elimRows (swapRows st.rows st.rowPtr p) st.rowPtr col) n =
        if n ≠ st.rowPtr ∧ getBit (rowVal (swapRows st.rows st.rowPtr p) n).1 col = 1
        then ((rowVal (swapRows st.rows st.rowPtr p) n).1 ^^^ (rowVal st.rows p).1,
              (rowVal (swapRows st.rows st.rowPtr p) n).2 ^^^ (rowVal st.rows p).2)
        else rowVal (swapRows st.rows st.rowPtr p) n := by
    intro n hn
    rw [rowVal_elimRows (by rw [hlen1]; exact hn), hprow]
  have hmask1 : rowsAll (fun rw => rw.1 < 2 ^ k) (swapRows st.rows st.rowPtr p) :=
    rowsAll_swap hρlen hplen hinv.mask_lt
  have hy1 : ywf (swapRows st.rows st.rowPtr p) :=
    rowsAll_swap hρlen hplen hinv.y_le
  have hpivlen : col < st.pivot_row_for_col.length := by rw [hinv.len_piv]; exact hcol
  refine ⟨?_, ?_, ?_, ?_, ?_, ?_, ?_, ?_, ?_, ?_⟩
  · dsimp only
    exact hlen2
  · dsimp only
    rw [List.length_set]
    exact hinv.len_piv
  · dsimp only
    omega
  · dsimp only
    exact rowsAll_elimRows col hρlen1 (fun a b ha hb => xor_lt_two_pow ha hb) hmask1
  · dsimp only [ywf] at hy1 ⊢
    exact rowsAll_elimRows col hρlen1 (fun a b ha hb => xor_le_one ha hb) hy1
  · -- piv_unassigned for columns ≥ col + 1
    intro c hc
    dsimp only
    rw [getD_set_ne' _ _ (by omega)]
    exact hinv.piv_unassigned c (by omega)
  · -- piv_assigned
    intro c hc
    dsimp only at hc ⊢
    by_cases hcc : col = c
    · rw [← hcc, getD_set_self' _ _ hpivlen]
      exact ⟨st.rowPtr, rfl, by omega⟩
    · rw [getD_set_ne' _ _ hcc] at hc ⊢
      obtain ⟨r, hr1, hr2⟩ := hinv.piv_assigned c hc
      exact ⟨r, hr1, by omega⟩
  · -- piv_surj
    intro r hr
    dsimp only at hr ⊢
    by_cases hrρ : r = st.rowPtr
    · refine ⟨col, by omega, ?_⟩
      rw [getD_set_self' _ _ hpivlen, hrρ]
    · obtain ⟨c, hc1, hc2⟩ := hinv.piv_surj r (by omega)
      refine ⟨c, by omega, ?_⟩
      rw [getD_set_ne' _ _ (by omega)]
      exact hc2
  · -- piv_bit
    intro c r hc
    dsimp only at hc ⊢
    by_cases hcc : col = c
    · rw [← hcc, getD_set_self' _ _ hpivlen] at hc
      have hrρ : r = st.rowPtr := by exact_mod_cast hc.symm
      constructor
      · rw [hrρ, ← hcc, rowVal_elimRows_pivot col hρlen1, hprow]
        exact hpbit
      · intro c' hc' hc'assigned
        rw [← hcc] at hc'
        rw [getD_set_ne' _ _ (fun h => hc' h.symm)] at hc'assigned
        have hc'lt : c' < col := by
          by_contra hge
          exact hc'assigned (hinv.piv_unassigned c' (by omega))
        rw [hrρ, rowVal_elimRows_pivot col hρlen1, hprow]
        exact hunp p hpl hpm c' hc'lt
    · rw [getD_set_ne' _ _ hcc] at hc
      have hcassigned : st.pivot_row_for_col.getD c (-1) ≠ -1 := by
        rw [hc]
        intro hcontra
        have hge : (0 : ℤ) ≤ (r : ℤ) := Int.natCast_nonneg r
        omega
      obtain ⟨r', hr'1, hr'2⟩ := hinv.piv_assigned c hcassigned
      have hrr' : r' = r := by
        rw [hc] at hr'1
        exact_mod_cast hr'1.symm
      rw [hrr'] at hr'2
      have hclt : c < col := by
        by_contra hge
        exact hcassigned (hinv.piv_unassigned c (by omega))
      obtain ⟨hbitc, hbitother⟩ := hinv.piv_bit c r hc
      have hr1val : rowVal (swapRows st.rows st.rowPtr p) r = rowVal st.rows r := hlow r hr'2
      have hrm : r < m := by omega
      have hrρ : r ≠ st.rowPtr := by omega
      rw [hval2 r hrm, hr1val]
      by_cases hcond : getBit (rowVal st.rows r).1 col = 1
      · rw [if_pos ⟨hrρ, hcond⟩]
        constructor
        · simp only
          rw [getBit_xor, hbitc, hunp p hpl hpm c hclt]
        · intro c' hc' hc'assigned
          simp only
          by_cases hc'col : col = c'
          · rw [← hc'col, getBit_xor, hcond, hpbit]
          · rw [getD_set_ne' _ _ hc'col] at hc'assigned
            have hc'lt : c' < col := by
              by_contra hge
              exact hc'assigned (hinv.piv_unassigned c' (by omega))
            rw [getBit_xor, hbitother c' hc' hc'assigned, hunp p hpl hpm c' hc'lt]
      · rw [if_neg (fun hcontra => hcond hcontra.2)]
        constructor
        · exact hbitc
        · intro c' hc' hc'assigned
          by_cases hc'col : col = c'
          · rw [← hc'col]
            exact getBit_eq_zero_of_ne_one hcond
          · rw [getD_set_ne' _ _ hc'col] at hc'assigned
            exact hbitother c' hc' hc'assigned
  · -- unproc
    intro i hi1 hi2 c hc
    dsimp only at hi1 hi2 ⊢
    have hiρ : i ≠ st.rowPtr := by omega
    obtain ⟨n0, hn01, hn02, hn0val⟩ := hhigh i (by omega) hi2
    rw [hval2 i hi2, hn0val]
    by_cases hccol : c = col
    · by_cases hcond : getBit (rowVal st.rows n0).1 col = 1
      · rw [if_pos ⟨hiρ, hcond⟩]
        simp only
        rw [hccol, getBit_xor, hcond, hpbit]
      · rw [if_neg (fun hcontra => hcond hcontra.2)]
        rw [hccol]
        exact getBit_eq_zero_of_ne_one hcond
    · have hclt : c < col := by omega
      by_cases hcond : getBit (rowVal st.rows n0).1 col = 1
      · rw [if_pos ⟨hiρ, hcond⟩]
        simp only
        rw [getBit_xor, hunp n0 hn01 hn02 c hclt, hunp p hpl hpm c hclt]
      · rw [if_neg (fun hcontra => hcond hcontra.2)]
        exact hunp n0 hn01 hn02 c hclt

theorem elimCols_inv {k m : ℕ} : ∀ (n col : ℕ) (st : ElimState), ElimInv k m col st →
    col + n = k → PostInv k m (elimCols m (List.range' col n) st) := by
  intro n
  induction n with
  | zero =>
    intro col st hinv hck
    rw [List.range'_zero, elimCols]
    have hcol : col = k := by omega
    exact postInv_of_done (hcol ▸ hinv)
  | succ nn ih =>
    intro col st hinv hck
    rw [List.range'_succ, elimCols]
    cases hfp : findPivot st.rows col st.rowPtr (m - st.rowPtr) with
    | none =>
      simp only [colStep, hfp]
      exact ih (col + 1) st (elimInv_step_none hinv hfp) (by omega)
    | some p =>
      have hcolk : col < k := by omega
      have hstep := elimInv_step_some hinv hcolk hfp
      simp only [colStep, hfp]
      by_cases hbrk : st.rowPtr + 1 = m
      · rw [if_pos (decide_eq_true hbrk)]
        exact postInv_of_break hstep (by dsimp only; omega)
      · rw [if_neg (by simp [hbrk])]
        exact ih (col + 1) _ hstep (by omega)

theorem elimCols_sat {k m : ℕ} (x : ℕ → ZMod 2) : ∀ (n col : ℕ) (st : ElimState),
    ElimInv k m col st →
    (satRows k (elimCols m (List.range' col n) st).rows x ↔ satRows k st.rows x) := by
  intro n
  induction n with
  | zero =>
    intro col st hinv
    rw [List.range'_zero, elimCols]
  | succ nn ih =>
    intro col st hinv
    rw [List.range'_succ, elimCols]
    cases hfp : findPivot st.rows col st.rowPtr (m - st.rowPtr) with
    | none =>
      simp only [colStep, hfp]
      exact ih (col + 1) st (elimInv_step_none hinv hfp)
    | some p =>
      obtain ⟨hpl, hpu, hpbit, _⟩ := findPivot_some hfp
      have hrow := hinv.row_le
      have hpm : p < m := by omega
      have hρm : st.rowPtr < m := by omega
      have hρlen : st.rowPtr < st.rows.length := by rw [hinv.len_rows]; exact hρm
      have hplen : p < st.rows.length := by rw [hinv.len_rows]; exact hpm
      have hρlen1 : st.rowPtr < (swapRows st.rows st.rowPtr p).length := by
        rw [length_swapRows]; exact hρlen
      have hy1 : ywf (swapRows st.rows st.rowPtr p) :=
        rowsAll_swap hρlen hplen hinv.y_le
      have hsat2 : satRows k (elimRows (swapRows st.rows st.rowPtr p) st.rowPtr col) x ↔
          satRows k st.rows x := by
        rw [satRows_elimRows_iff hρlen1 hy1, satRows_swap_iff hρlen hplen]
      simp only [colStep, hfp]
      by_cases hcolk : col < k
      · have hstep := elimInv_step_some hinv hcolk hfp
        by_cases hbrk : st.rowPtr + 1 = m
        · rw [if_pos (decide_eq_true hbrk)]
          exact hsat2
        · rw [if_neg (by simp [hbrk])]
          rw [ih (col + 1) _ hstep]
          exact hsat2
      · -- col ≥ k cannot occur when called with range' 0 k, but handle it anyway:
        -- a pivot found means bit col of a mask is 1, yet masks are < 2^k
        exfalso
        have hmk := hinv.mask_lt p hplen
        rw [getBit_eq_one_iff] at hpbit
        have hbits : (rowVal st.rows p).1 < 2 ^ col := by
          calc (rowVal st.rows p).1 < 2 ^ k := hmk
          _ ≤ 2 ^ col := Nat.pow_le_pow_right (by norm_num) (by omega)
        rw [Nat.testBit_lt_two_pow hbits] at hpbit
        exact absurd hpbit (by simp)

/-! ### Per-bit-plane solver correctness -/

/-- The assignment read off from the back-substitution of one plane, as a
GF(2) valuation of the unknowns. -/
def xAssign (st : ElimState) (k : ℕ) : ℕ → ZMod 2 :=
  fun c => (((xBits st k).getD c 0 : ℕ) : ZMod 2)

theorem xBits_getD_lt {st : ElimState} {k c : ℕ} (h : c < k) :
    (xBits st k).getD c 0 =
      if st.pivot_row_for_col.getD c (-1) ≠ -1
      then (rowVal st.rows (st.pivot_row_for_col.getD c (-1)).toNat).2 &&& 1 else 0 := by
  rw [xBits, List.getD_eq_getElem?_getD, List.getElem?_map, List.getElem?_range h]
  rfl

theorem xBits_getD_ge {st : ElimState} {k c : ℕ} (h : k ≤ c) :
    (xBits st k).getD c 0 = 0 := by
  apply getD_ge'
  rw [xBits, List.length_map, List.length_range]
  exact h

theorem xBits_le_one (st : ElimState) (k c : ℕ) : (xBits st k).getD c 0 ≤ 1 := by
  by_cases h : c < k
  · rw [xBits_getD_lt h]
    split
    · rw [Nat.and_one_is_mod]
      omega
    · omega
  · rw [xBits_getD_ge (by omega)]
    omega

theorem elimInv_init {k : ℕ} {masks ys : List ℕ} (hlen : ys.length = masks.length)
    (hmask : ∀ i < masks.length, masks.getD i 0 < 2 ^ k)
    (hy : ∀ i < ys.length, ys.getD i 0 ≤ 1) :
    ElimInv k masks.length 0 ⟨masks.zip ys, List.replicate k (-1), 0⟩ := by
  have hzlen : (masks.zip ys).length = masks.length := by
    rw [List.length_zip, hlen, min_self]
  have hpivinit : ∀ c : ℕ, (List.replicate k (-1 : ℤ)).getD c (-1) = -1 := by
    intro c
    by_cases hck : c < k
    · exact getD_replicate_lt _ _ hck
    · exact getD_ge' _ (by rw [List.length_replicate]; omega)
  refine ⟨?_, ?_, ?_, ?_, ?_, ?_, ?_, ?_, ?_, ?_⟩
  · exact hzlen
  · dsimp only
    rw [List.length_replicate]
  · dsimp only
    omega
  · intro i hi
    dsimp only at hi ⊢
    rw [hzlen] at hi
    rw [rowVal_zip hi (by omega)]
    exact hmask i hi
  · intro i hi
    dsimp only at hi ⊢
    rw [hzlen] at hi
    rw [rowVal_zip hi (by omega)]
    exact hy i (by omega)
  · intro c _
    exact hpivinit c
  · intro c hc
    exact absurd (hpivinit c) hc
  · intro r hr
    dsimp only at hr
    omega
  · intro c r hc
    dsimp only at hc
    rw [hpivinit c] at hc
    exact absurd hc (by omega)
  · intro i _ _ c hc
    omega

theorem gaussElim_postInv {k : ℕ} {masks ys : List ℕ} (hlen : ys.length = masks.length)
    (hmask : ∀ i < masks.length, masks.getD i 0 < 2 ^ k)
    (hy : ∀ i < ys.length, ys.getD i 0 ≤ 1) :
    PostInv k masks.length (gaussElim masks ys k) := by
  rw [gaussElim, List.range_eq_range']
  exact elimCols_inv k 0 _ (elimInv_init hlen hmask hy) (by omega)

theorem gaussElim_sat_iff {k : ℕ} {masks ys : List ℕ} (hlen : ys.length = masks.length)
    (hmask : ∀ i < masks.length, masks.getD i 0 < 2 ^ k)
    (hy : ∀ i < ys.length, ys.getD i 0 ≤ 1) (x : ℕ → ZMod 2) :
    (satRows k (gaussElim masks ys k).rows x ↔ satRows k (masks.zip ys) x) := by
  rw [gaussElim, List.range_eq_range']
  exact elimCols_sat x k 0 _ (elimInv_init hlen hmask hy)

theorem gaussElim_readoff {k : ℕ} {masks ys : List ℕ} (hlen : ys.length = masks.length)
    (hmask : ∀ i < masks.length, masks.getD i 0 < 2 ^ k)
    (hy : ∀ i < ys.length, ys.getD i 0 ≤ 1)
    (hcheck : inconsistentCheck (gaussElim masks ys k) = false) :
    satRows k (masks.zip ys) (xAssign (gaussElim masks ys k) k) := by
  have hpost := gaussElim_postInv hlen hmask hy
  rw [← gaussElim_sat_iff hlen hmask hy]
  intro i hi
  have him : i < masks.length := by rwa [hpost.len_rows] at hi
  rcases hpost.rows_classified i him with ⟨c, hc⟩ | hzero
  · have hck : c < k := by
      by_contra hge
      have hd : (gaussElim masks ys k).pivot_row_for_col.getD c (-1) = -1 :=
        getD_ge' _ (by rw [hpost.len_piv]; omega)
      rw [hd] at hc
      omega
    obtain ⟨hbit1, hbito⟩ := hpost.piv_bit c i hc
    have hyle : (rowVal (gaussElim masks ys k).rows i).2 ≤ 1 := hpost.y_le i hi
    have hx_c : xAssign (gaussElim masks ys k) k c =
        (((rowVal (gaussElim masks ys k).rows i).2 : ℕ) : ZMod 2) := by
      rw [xAssign, xBits_getD_lt hck, if_pos (by rw [hc]; omega), hc, Int.toNat_natCast,
        Nat.and_one_is_mod, Nat.mod_eq_of_lt (by omega)]
    have hsum : dotZ k (rowVal (gaussElim masks ys k).rows i).1 (xAssign (gaussElim masks ys k) k) =
        xAssign (gaussElim masks ys k) k c := by
      rw [dotZ]
      rw [Finset.sum_eq_single_of_mem c (Finset.mem_range.mpr hck) ?side]
      · rw [bitZ, hbit1]
        push_cast
        ring
      case side =>
        intro j _ hjc
        by_cases hassigned : (gaussElim masks ys k).pivot_row_for_col.getD j (-1) ≠ -1
        · rw [bitZ, hbito j hjc hassigned]
          push_cast
          ring
        · push_neg at hassigned
          have hxj : xAssign (gaussElim masks ys k) k j = 0 := by
            rw [xAssign]
            by_cases hjk : j < k
            · rw [xBits_getD_lt hjk, if_neg (not_not_intro hassigned)]
              push_cast
              ring
            · rw [xBits_getD_ge (by omega)]
              push_cast
              ring
          rw [hxj]
          ring
    rw [hsum, hx_c]
  · rw [hzero, dotZ_zero_mask]
    have hyle : (rowVal (gaussElim masks ys k).rows i).2 ≤ 1 := hpost.y_le i hi
    have hmem : rowVal (gaussElim masks ys k).rows i ∈ (gaussElim masks ys k).rows := by
      rw [rowVal_lt hi]
      exact List.getElem_mem hi
    rw [inconsistentCheck, List.any_eq_false] at hcheck
    have hnot := hcheck _ hmem
    rw [Bool.and_eq_true] at hnot
    have hy0 : (rowVal (gaussElim masks ys k).rows i).2 = 0 := by
      by_contra hne
      have hy1 : (rowVal (gaussElim masks ys k).rows i).2 = 1 := by omega
      exact hnot ⟨by rw [beq_iff_eq]; exact hzero, by rw [beq_iff_eq]; exact hy1⟩
    rw [hy0]
    push_cast
    ring

theorem gaussElim_consistent {k : ℕ} {masks ys : List ℕ} (hlen : ys.length = masks.length)
    (hmask : ∀ i < masks.length, masks.getD i 0 < 2 ^ k)
    (hy : ∀ i < ys.length, ys.getD i 0 ≤ 1) {x : ℕ → ZMod 2}
    (hsat : satRows k (masks.zip ys) x) :
    inconsistentCheck (gaussElim masks ys k) = false := by
  by_contra hne
  have hcheck : inconsistentCheck (gaussElim masks ys k) = true := by
    cases hh : inconsistentCheck (gaussElim masks ys k)
    · exact absurd hh hne
    · rfl
  rw [inconsistentCheck, List.any_eq_true] at hcheck
  obtain ⟨rw0, hmem, hprop⟩ := hcheck
  rw [Bool.and_eq_true, beq_iff_eq, beq_iff_eq] at hprop
  obtain ⟨i, hilen, hival⟩ := List.mem_iff_getElem.mp hmem
  have hsat' : satRows k (gaussElim masks ys k).rows x :=
    (gaussElim_sat_iff hlen hmask hy x).mpr hsat
  have hrow := hsat' i hilen
  rw [rowVal_lt hilen, hival, hprop.1, hprop.2, dotZ_zero_mask] at hrow
  exact absurd hrow.symm (by decide)

/-! ### The bit-plane loop of solve_switch_ids -/

/-- An assignment solves the bit-plane system of the given masks and
accumulator values. -/
def planeSat (masks pints : List ℕ) (k bit : ℕ) (x : ℕ → ZMod 2) : Prop :=
  satRows k (masks.zip (ysAt pints bit)) x

theorem ysAt_length (pints : List ℕ) (bit : ℕ) : (ysAt pints bit).length = pints.length :=
  List.length_map _ _

theorem ysAt_getD {pints : List ℕ} {i : ℕ} (bit : ℕ) (h : i < pints.length) :
    (ysAt pints bit).getD i 0 = getBit (pints.getD i 0) bit := by
  rw [ysAt, List.getD_eq_getElem?_getD, List.getElem?_map, List.getElem?_eq_getElem h,
    Option.map_some', Option.getD_some, List.getD_eq_getElem?_getD, List.getElem?_eq_getElem h]
  rfl

theorem ysAt_le_one (pints : List ℕ) (bit i : ℕ) : (ysAt pints bit).getD i 0 ≤ 1 := by
  by_cases h : i < pints.length
  · rw [ysAt_getD bit h]
    exact getBit_le_one _ _
  · rw [getD_ge' _ (by rw [ysAt_length]; omega)]
    omega

theorem satRows_congr {k : ℕ} {rows : List (ℕ × ℕ)} {x x' : ℕ → ZMod 2}
    (h : ∀ c < k, x c = x' c) (hs : satRows k rows x) : satRows k rows x' := by
  intro i hi
  have hd : dotZ k (rowVal rows i).1 x' = dotZ k (rowVal rows i).1 x := by
    rw [dotZ, dotZ]
    apply Finset.sum_congr rfl
    intro j hj
    rw [h j (Finset.mem_range.mp hj)]
  rw [hd]
  exact hs i hi

theorem accumulate_length (ids xb : List ℕ) (bit : ℕ) :
    (accumulate ids xb bit).length = ids.length := by
  rw [accumulate, List.length_mapIdx]

theorem accumulate_getD {ids xb : List ℕ} {i : ℕ} (bit : ℕ) (h : i < ids.length) :
    (accumulate ids xb bit).getD i 0 =
      if xb.getD i 0 ≠ 0 then ids.getD i 0 ||| 1 <<< bit else ids.getD i 0 := by
  have hg : ids.getD i 0 = ids[i] := by
    rw [List.getD_eq_getElem?_getD, List.getElem?_eq_getElem h]
    rfl
  rw [accumulate, List.getD_eq_getElem?_getD, List.getElem?_mapIdx, List.getElem?_eq_getElem h,
    Option.map_some', Option.getD_some, hg]

theorem accumulate_getD_ge {ids xb : List ℕ} {i : ℕ} (bit : ℕ) (h : ids.length ≤ i) :
    (accumulate ids xb bit).getD i 0 = 0 :=
  getD_ge' _ (by rw [accumulate_length]; exact h)

theorem accumulate_lt {ids xb : List ℕ} {bit : ℕ} (hids : ∀ i, ids.getD i 0 < 2 ^ bit) :
    ∀ i, (accumulate ids xb bit).getD i 0 < 2 ^ (bit + 1) := by
  intro i
  by_cases h : i < ids.length
  · rw [accumulate_getD bit h]
    have h1 : ids.getD i 0 < 2 ^ (bit + 1) := by
      calc ids.getD i 0 < 2 ^ bit := hids i
      _ ≤ 2 ^ (bit + 1) := Nat.pow_le_pow_right (by norm_num) (by omega)
    split
    · rw [Nat.one_shiftLeft]
      exact Nat.or_lt_two_pow h1 (by
        have : (2 : ℕ) ^ (bit + 1) = 2 ^ bit + 2 ^ bit := by ring
        have h2 : (0 : ℕ) < 2 ^ bit := Nat.pos_pow_of_pos bit (by norm_num)
        omega)
    · exact h1
  · rw [accumulate_getD_ge bit (by omega)]
    exact Nat.pos_pow_of_pos _ (by norm_num)

theorem accumulate_testBit_lt {ids xb : List ℕ} {bit b : ℕ} (hb : b < bit) (i : ℕ) :
    ((accumulate ids xb bit).getD i 0).testBit b = (ids.getD i 0).testBit b := by
  by_cases h : i < ids.length
  · rw [accumulate_getD bit h]
    split
    · rw [Nat.testBit_or, Nat.one_shiftLeft, Nat.testBit_two_pow_of_ne (by omega)]
      simp
    · rfl
  · rw [accumulate_getD_ge bit (by omega), getD_ge' _ (by omega)]

theorem accumulate_testBit_self {ids xb : List ℕ} {bit i : ℕ} (h : i < ids.length)
    (hlt : ids.getD i 0 < 2 ^ bit) :
    ((accumulate ids xb bit).getD i 0).testBit bit = decide (xb.getD i 0 ≠ 0) := by
  rw [accumulate_getD bit h]
  by_cases hxb : xb.getD i 0 ≠ 0
  · rw [if_pos hxb, Nat.testBit_or, Nat.one_shiftLeft, Nat.testBit_two_pow_self,
      decide_eq_true hxb]
    simp
  · rw [if_neg hxb, Nat.testBit_lt_two_pow hlt]
    simp only [decide_eq_false hxb]

theorem bit_cast_decide {w : ℕ} (hw : w ≤ 1) :
    (((decide (w ≠ 0)).toNat : ℕ) : ZMod 2) = (w : ZMod 2) := by
  interval_cases w <;> decide

theorem solveBits_ok_spec {k : ℕ} {masks pints : List ℕ}
    (hlen : pints.length = masks.length)
    (hmask : ∀ i < masks.length, masks.getD i 0 < 2 ^ k) :
    ∀ (n b0 : ℕ) (ids v : List ℕ),
      ids.length = k → (∀ i, ids.getD i 0 < 2 ^ b0) →
      solveBits masks pints k (List.range' b0 n) ids = .ok v →
      v.length = k ∧
      (∀ i, v.getD i 0 < 2 ^ (b0 + n)) ∧
      (∀ i b, b < b0 → (v.getD i 0).testBit b = (ids.getD i 0).testBit b) ∧
      (∀ b, b0 ≤ b → b < b0 + n →
        planeSat masks pints k b (fun c => bitZ (v.getD c 0) b)) ∧
      (∀ i b, i < k → b0 ≤ b → b < b0 + n →
        (gaussElim masks (ysAt pints b) k).pivot_row_for_col.getD i (-1) = -1 →
        (v.getD i 0).testBit b = false) := by
  intro n
  induction n with
  | zero =>
    intro b0 ids v hidslen hidsb hok
    rw [List.range'_zero, solveBits] at hok
    have hv : ids = v := by
      cases hok
      rfl
    subst hv
    refine ⟨hidslen, by simpa using hidsb, fun i b _ => rfl, ?_, ?_⟩
    · intro b hb1 hb2
      omega
    · intro i b _ hb1 hb2
      omega
  | succ nn ih =>
    intro b0 ids v hidslen hidsb hok
    rw [List.range'_succ] at hok
    simp only [solveBits] at hok
    have hyslen : (ysAt pints b0).length = masks.length := by rw [ysAt_length]; exact hlen
    have hysle : ∀ i < (ysAt pints b0).length, (ysAt pints b0).getD i 0 ≤ 1 :=
      fun i _ => ysAt_le_one pints b0 i
    cases hcheck : inconsistentCheck (gaussElim masks (ysAt pints b0) k) with
    | true =>
      rw [hcheck] at hok
      exact absurd hok (by simp)
    | false =>
      rw [hcheck] at hok
      simp only [Bool.false_eq_true, if_false] at hok
      set xb := xBits (gaussElim masks (ysAt pints b0) k) k with hxb
      set acc := accumulate ids xb b0 with hacc
      have hacclen : acc.length = k := by rw [hacc, accumulate_length, hidslen]
      have haccb : ∀ i, acc.getD i 0 < 2 ^ (b0 + 1) := accumulate_lt hidsb
      obtain ⟨hv1, hv2, hv3, hv4, hv5⟩ := ih (b0 + 1) acc v hacclen haccb hok
      have hvacc_b0 : ∀ i, (v.getD i 0).testBit b0 = (acc.getD i 0).testBit b0 :=
        fun i => hv3 i b0 (by omega)
      refine ⟨hv1, ?_, ?_, ?_, ?_⟩
      · intro i
        have hb : b0 + (nn + 1) = b0 + 1 + nn := by omega
        rw [hb]
        exact hv2 i
      · intro i b hb
        rw [hv3 i b (by omega), hacc, accumulate_testBit_lt hb]
      · intro b hb1 hb2
        by_cases hbb0 : b0 + 1 ≤ b
        · exact hv4 b hbb0 (by omega)
        · have hbeq : b = b0 := by omega
          subst hbeq
          have hread := gaussElim_readoff hyslen hmask hysle hcheck
          apply satRows_congr _ hread
          intro c hck
          have ht1 : (v.getD c 0).testBit b = (acc.getD c 0).testBit b := hvacc_b0 c
          have ht2 : (acc.getD c 0).testBit b = decide (xb.getD c 0 ≠ 0) := by
            rw [hacc]
            exact accumulate_testBit_self (by rw [hidslen]; exact hck) (hidsb c)
          rw [xAssign, bitZ, getBit_eq_testBit, ht1, ht2, bit_cast_decide (xBits_le_one _ _ _)]
      · intro i b hik hb1 hb2 hpiv
        by_cases hbb0 : b0 + 1 ≤ b
        · exact hv5 i b hik hbb0 (by omega) hpiv
        · have hbeq : b = b0 := by omega
          subst hbeq
          rw [hvacc_b0 i, hacc,
            accumulate_testBit_self (by rw [hidslen]; exact hik) (hidsb i), hxb,
            xBits_getD_lt hik, if_neg (not_not_intro hpiv)]
          simp

theorem solveBits_ok_of_consistent {k : ℕ} {masks pints : List ℕ}
    (hlen : pints.length = masks.length)
    (hmask : ∀ i < masks.length, masks.getD i 0 < 2 ^ k) :
    ∀ (n b0 : ℕ) (ids : List ℕ),
      (∀ b, b0 ≤ b → b < b0 + n → ∃ x, planeSat masks pints k b x) →
      ∃ v, solveBits masks pints k (List.range' b0 n) ids = .ok v := by
  intro n
  induction n with
  | zero =>
    intro b0 ids _
    rw [List.range'_zero, solveBits]
    exact ⟨ids, rfl⟩
  | succ nn ih =>
    intro b0 ids hcons
    rw [List.range'_succ]
    simp only [solveBits]
    have hyslen : (ysAt pints b0).length = masks.length := by rw [ysAt_length]; exact hlen
    have hysle : ∀ i < (ysAt pints b0).length, (ysAt pints b0).getD i 0 ≤ 1 :=
      fun i _ => ysAt_le_one pints b0 i
    obtain ⟨x0, hx0⟩ := hcons b0 (le_refl _) (by omega)
    have hcheck : inconsistentCheck (gaussElim masks (ysAt pints b0) k) = false :=
      gaussElim_consistent hyslen hmask hysle hx0
    rw [hcheck]
    simp only [Bool.false_eq_true, if_false]
    exact ih (b0 + 1) _ (fun b hb1 hb2 => hcons b (by omega) (by omega))

theorem solveBits_error_at {k : ℕ} {masks pints : List ℕ}
    (hlen : pints.length = masks.length)
    (hmask : ∀ i < masks.length, masks.getD i 0 < 2 ^ k) :
    ∀ (n b0 bstar : ℕ) (ids : List ℕ),
      b0 ≤ bstar → bstar < b0 + n →
      (∀ b, b0 ≤ b → b < bstar → ∃ x, planeSat masks pints k b x) →
      (∀ x, ¬ planeSat masks pints k bstar x) →
      solveBits masks pints k (List.range' b0 n) ids = .error bstar := by
  intro n
  induction n with
  | zero =>
    intro b0 bstar ids hb1 hb2 _ _
    omega
  | succ nn ih =>
    intro b0 bstar ids hb1 hb2 hcons hnone
    rw [List.range'_succ]
    simp only [solveBits]
    have hyslen : (ysAt pints b0).length = masks.length := by rw [ysAt_length]; exact hlen
    have hysle : ∀ i < (ysAt pints b0).length, (ysAt pints b0).getD i 0 ≤ 1 :=
      fun i _ => ysAt_le_one pints b0 i
    by_cases hbeq : b0 = bstar
    · subst hbeq
      cases hcheck : inconsistentCheck (gaussElim masks (ysAt pints b0) k) with
      | true => simp
      | false =>
        exact absurd (gaussElim_readoff hyslen hmask hysle hcheck) (hnone _)
    · obtain ⟨x0, hx0⟩ := hcons b0 (le_refl _) (by omega)
      have hcheck : inconsistentCheck (gaussElim masks (ysAt pints b0) k) = false :=
        gaussElim_consistent hyslen hmask hysle hx0
      rw [hcheck]
      simp only [Bool.false_eq_true, if_false]
      exact ih (b0 + 1) bstar _ (by omega) (by omega)
        (fun b hbb1 hbb2 => hcons b (by omega) hbb2) hnone

/-! ### XOR over a set of hops, and the equation-level view -/

/-- XOR of f over a finite set of hop indices (order-independent). -/
def xorSum (s : Finset ℕ) (f : ℕ → ℕ) : ℕ := Finset.fold (· ^^^ ·) 0 f s

theorem bitZ_xorSum (s : Finset ℕ) (f : ℕ → ℕ) (b : ℕ) :
    bitZ (xorSum s f) b = ∑ i ∈ s, bitZ (f i) b := by
  classical
  induction s using Finset.induction_on with
  | empty => rw [xorSum, Finset.fold_empty, Finset.sum_empty, bitZ_zero]
  | insert hnotmem ih =>
    rw [xorSum, Finset.fold_insert hnotmem, bitZ_xor, Finset.sum_insert hnotmem]
    rw [xorSum] at ih
    rw [ih]

theorem xorSum_lt {s : Finset ℕ} {f : ℕ → ℕ} {b : ℕ} (h : ∀ i ∈ s, f i < 2 ^ b) :
    xorSum s f < 2 ^ b := by
  classical
  induction s using Finset.induction_on with
  | empty =>
    rw [xorSum, Finset.fold_empty]
    exact Nat.pos_pow_of_pos b (by norm_num)
  | insert hnotmem ih =>
    rw [xorSum, Finset.fold_insert hnotmem]
    refine xor_lt_two_pow (h _ (Finset.mem_insert_self _ _)) ?_
    exact ih (fun i hi => h i (Finset.mem_insert_of_mem hi))

theorem bitZ_inj {a b i : ℕ} (h : bitZ a i = bitZ b i) : a.testBit i = b.testBit i := by
  rw [bitZ, bitZ, getBit_eq_testBit, getBit_eq_testBit] at h
  cases ha : a.testBit i <;> cases hb : b.testBit i <;> rw [ha, hb] at h <;>
    first
    | rfl
    | exact absurd h (by decide)

theorem eqMasks_length (eqs : List PacketEquation) (k : ℕ) :
    (eqMasks eqs k).length = eqs.length := List.length_map _ _

theorem eqPints_length (eqs : List PacketEquation) :
    (eqPints eqs).length = eqs.length := List.length_map _ _

theorem eqMasks_getD {eqs : List PacketEquation} {k i : ℕ} (h : i < eqs.length) :
    (eqMasks eqs k).getD i 0 = maskOf eqs[i].xor_set k := by
  rw [eqMasks, List.getD_eq_getElem?_getD, List.getElem?_map, List.getElem?_eq_getElem h]
  rfl

theorem eqPints_getD {eqs : List PacketEquation} {i : ℕ} (h : i < eqs.length) :
    (eqPints eqs).getD i 0 = eqs[i].final_pint := by
  rw [eqPints, List.getD_eq_getElem?_getD, List.getElem?_map, List.getElem?_eq_getElem h]
  rfl

theorem eqMasks_bound (eqs : List PacketEquation) (k : ℕ) :
    ∀ i < (eqMasks eqs k).length, (eqMasks eqs k).getD i 0 < 2 ^ k := by
  intro i hi
  rw [eqMasks_length] at hi
  rw [eqMasks_getD hi]
  exact maskOf_lt_two_pow _ _

theorem eq_lens {eqs : List PacketEquation} {k : ℕ} :
    (eqPints eqs).length = (eqMasks eqs k).length := by
  rw [eqPints_length, eqMasks_length]

/-- The plane system written per equation: the assignment x satisfies the
plane bit of every equation of the list. -/
theorem planeSat_iff_eqs {eqs : List PacketEquation} {k bit : ℕ} {x : ℕ → ZMod 2} :
    planeSat (eqMasks eqs k) (eqPints eqs) k bit x ↔
      ∀ j (hj : j < eqs.length),
        dotZ k (maskOf eqs[j].xor_set k) x = bitZ eqs[j].final_pint bit := by
  have hzlen : ((eqMasks eqs k).zip (ysAt (eqPints eqs) bit)).length = eqs.length := by
    rw [List.length_zip, ysAt_length, eqPints_length, eqMasks_length, min_self]
  constructor
  · intro hs j hj
    have hh := hs j (by rwa [hzlen])
    rw [rowVal_zip (by rwa [eqMasks_length]) (by rw [ysAt_length, eqPints_length]; exact hj)]
      at hh
    rw [eqMasks_getD hj, ysAt_getD bit (by rwa [eqPints_length]), eqPints_getD hj] at hh
    rw [hh, bitZ]
  · intro hs j hj
    rw [hzlen] at hj
    rw [rowVal_zip (by rwa [eqMasks_length]) (by rw [ysAt_length, eqPints_length]; exact hj)]
    rw [eqMasks_getD hj, ysAt_getD bit (by rwa [eqPints_length]), eqPints_getD hj]
    rw [hs j hj, bitZ]

/-- The GF(2) matrix of the equations' row masks, one row per equation and
one column per hop. -/
def masksMatrix (eqs : List PacketEquation) (k : ℕ) :
    Matrix (Fin eqs.length) (Fin k) (ZMod 2) :=
  Matrix.of (fun i j => bitZ (maskOf eqs[(i : ℕ)].xor_set k) (j : ℕ))

theorem dotZ_eq_sum_fin (k m : ℕ) (x : ℕ → ZMod 2) :
    dotZ k m x = ∑ j : Fin k, bitZ m (j : ℕ) * x (j : ℕ) := by
  rw [dotZ, ← Fin.sum_univ_eq_sum_range (fun i => bitZ m i * x i) k]

theorem masksMatrix_rank_unique {eqs : List PacketEquation} {k : ℕ}
    (hrank : (masksMatrix eqs k).rank = k) {x x' : ℕ → ZMod 2}
    (h : ∀ j (hj : j < eqs.length),
      dotZ k (maskOf eqs[j].xor_set k) x = dotZ k (maskOf eqs[j].xor_set k) x') :
    ∀ c < k, x c = x' c := by
  have hker : ∀ u : Fin k → ZMod 2, (masksMatrix eqs k).mulVecLin u = 0 → u = 0 := by
    intro u hu
    have h1 := LinearMap.finrank_range_add_finrank_ker (masksMatrix eqs k).mulVecLin
    have h2 : Module.finrank (ZMod 2)
        (LinearMap.range (masksMatrix eqs k).mulVecLin) = k := hrank
    have h3 : Module.finrank (ZMod 2) (Fin k → ZMod 2) = k := by
      rw [Module.finrank_pi, Fintype.card_fin]
    rw [h2, h3] at h1
    have h4 : Module.finrank (ZMod 2)
        (LinearMap.ker (masksMatrix eqs k).mulVecLin) = 0 := by omega
    have h5 : LinearMap.ker (masksMatrix eqs k).mulVecLin = ⊥ :=
      Submodule.finrank_eq_zero.mp h4
    have hmem : u ∈ LinearMap.ker (masksMatrix eqs k).mulVecLin := by
      rwa [LinearMap.mem_ker]
    rw [h5] at hmem
    simpa using hmem
  intro c hck
  have hmv : (masksMatrix eqs k).mulVecLin (fun j => x (j : ℕ) - x' (j : ℕ)) = 0 := by
    funext i
    rw [Matrix.mulVecLin_apply]
    show ∑ j : Fin k, masksMatrix eqs k i j * (x (j : ℕ) - x' (j : ℕ)) = 0
    have hsplit : ∀ j : Fin k, masksMatrix eqs k i j * (x (j : ℕ) - x' (j : ℕ)) =
        bitZ (maskOf eqs[(i : ℕ)].xor_set k) (j : ℕ) * x (j : ℕ) -
        bitZ (maskOf eqs[(i : ℕ)].xor_set k) (j : ℕ) * x' (j : ℕ) := by
      intro j
      rw [masksMatrix]
      show bitZ (maskOf eqs[(i : ℕ)].xor_set k) (j : ℕ) * (x (j : ℕ) - x' (j : ℕ)) = _
      ring
    rw [Finset.sum_congr rfl (fun j _ => hsplit j), Finset.sum_sub_distrib,
      ← dotZ_eq_sum_fin, ← dotZ_eq_sum_fin, h (i : ℕ) i.isLt]
    simp
  have hu0 := hker _ hmv
  have := congrFun hu0 ⟨c, hck⟩
  simpa [sub_eq_zero] using this

/-! ### Top-level solver facts -/

theorem solve_switch_ids_ok_elim {eqs : List PacketEquation} {k b : ℕ} {v : List ℕ}
    (hok : solve_switch_ids eqs k b = .ok v) :
    eqs.length ≠ 0 ∧
    solveBits (eqMasks eqs k) (eqPints eqs) k (List.range b) (List.replicate k 0) = .ok v := by
  rw [solve_switch_ids] at hok
  by_cases hz : eqs.length = 0
  · rw [if_pos hz] at hok
    exact absurd hok (by simp)
  · rw [if_neg hz] at hok
    refine ⟨hz, ?_⟩
    cases hsb : solveBits (eqMasks eqs k) (eqPints eqs) k (List.range b)
        (List.replicate k 0) with
    | error bit =>
      rw [hsb] at hok
      exact absurd hok (by simp)
    | ok ids =>
      rw [hsb] at hok
      simp only [Except.ok.injEq] at hok
      rw [hok]

theorem replicate_zero_getD (k i : ℕ) : (List.replicate k (0 : ℕ)).getD i 0 = 0 := by
  by_cases h : i < k
  · exact getD_replicate_lt _ _ h
  · exact getD_ge' _ (by rw [List.length_replicate]; omega)

theorem solve_switch_ids_ok_spec {eqs : List PacketEquation} {k b : ℕ} {v : List ℕ}
    (hok : solve_switch_ids eqs k b = .ok v) :
    v.length = k ∧ (∀ i, v.getD i 0 < 2 ^ b) ∧
    (∀ bit, bit < b →
      planeSat (eqMasks eqs k) (eqPints eqs) k bit (fun c => bitZ (v.getD c 0) bit)) ∧
    (∀ i bit, i < k → bit < b →
      (gaussElim (eqMasks eqs k) (ysAt (eqPints eqs) bit) k).pivot_row_for_col.getD i (-1)
        = -1 →
      (v.getD i 0).testBit bit = false) := by
  obtain ⟨hz, hsb⟩ := solve_switch_ids_ok_elim hok
  rw [List.range_eq_range'] at hsb
  obtain ⟨h1, h2, _, h4, h5⟩ := solveBits_ok_spec eq_lens (eqMasks_bound eqs k) b 0
    (List.replicate k 0) v (List.length_replicate k 0)
    (fun i => by rw [replicate_zero_getD]; norm_num) hsb
  refine ⟨h1, fun i => by have := h2 i; simpa using this, ?_, ?_⟩
  · intro bit hbit
    exact h4 bit (by omega) (by omega)
  · intro i bit hik hbit
    exact h5 i bit hik (by omega) (by omega)

theorem solve_switch_ids_sound_xor {eqs : List PacketEquation} {k b : ℕ} {v : List ℕ}
    (hok : solve_switch_ids eqs k b = .ok v) :
    v.length = k ∧ (∀ i, v.getD i 0 < 2 ^ b) ∧
    ∀ eq ∈ eqs, xorSum (eq.xor_set.filter (· < k)) (fun i => v.getD i 0)
      = eq.final_pint % 2 ^ b := by
  obtain ⟨h1, h2, h4, _⟩ := solve_switch_ids_ok_spec hok
  refine ⟨h1, h2, ?_⟩
  intro eq hmem
  obtain ⟨j, hj, hjval⟩ := List.mem_iff_getElem.mp hmem
  apply Nat.eq_of_testBit_eq
  intro bit
  by_cases hbit : bit < b
  · have hplane := (planeSat_iff_eqs.mp (h4 bit hbit)) j hj
    rw [dotZ_maskOf] at hplane
    have hxor : bitZ (xorSum (eqs[j].xor_set.filter (· < k)) (fun i => v.getD i 0)) bit =
        bitZ eqs[j].final_pint bit := by
      rw [bitZ_xorSum]
      exact hplane
    have htb := bitZ_inj hxor
    rw [hjval] at htb
    rw [htb, Nat.testBit_mod_two_pow, decide_eq_true hbit, Bool.true_and]
  · have hlt : xorSum (eq.xor_set.filter (· < k)) (fun i => v.getD i 0) < 2 ^ bit := by
      refine lt_of_lt_of_le (xorSum_lt (fun i _ => h2 i)) ?_
      exact Nat.pow_le_pow_right (by norm_num) (by omega)
    have hlt2 : eq.final_pint % 2 ^ b < 2 ^ bit := by
      refine lt_of_lt_of_le (Nat.mod_lt _ (Nat.pos_pow_of_pos b (by norm_num))) ?_
      exact Nat.pow_le_pow_right (by norm_num) (by omega)
    rw [Nat.testBit_lt_two_pow hlt, Nat.testBit_lt_two_pow hlt2]

theorem bitZ_mod_two_pow {pint b bit : ℕ} (hbit : bit < b) :
    bitZ (pint % 2 ^ b) bit = bitZ pint bit := by
  rw [bitZ, bitZ, getBit_eq_testBit, getBit_eq_testBit, Nat.testBit_mod_two_pow,
    decide_eq_true hbit, Bool.true_and]

theorem solve_switch_ids_exact {eqs : List PacketEquation} {k b : ℕ} {trueIds : List ℕ}
    (hne : eqs.length ≠ 0)
    (hlen : trueIds.length = k)
    (hbound : ∀ i, trueIds.getD i 0 < 2 ^ b)
    (htrue : ∀ j (hj : j < eqs.length),
      xorSum (eqs[j].xor_set.filter (· < k)) (fun i => trueIds.getD i 0)
        = eqs[j].final_pint % 2 ^ b)
    (hrank : (masksMatrix eqs k).rank = k) :
    solve_switch_ids eqs k b = .ok trueIds := by
  have hplane : ∀ bit, bit < b →
      planeSat (eqMasks eqs k) (eqPints eqs) k bit (fun c => bitZ (trueIds.getD c 0) bit) := by
    intro bit hbit
    apply planeSat_iff_eqs.mpr
    intro j hj
    rw [dotZ_maskOf, ← bitZ_xorSum, htrue j hj, bitZ_mod_two_pow hbit]
  obtain ⟨v, hsb⟩ := solveBits_ok_of_consistent eq_lens (eqMasks_bound eqs k) b 0
    (List.replicate k 0) (fun bit _ hb2 =>
      ⟨fun c => bitZ (trueIds.getD c 0) bit, hplane bit (by omega)⟩)
  rw [← List.range_eq_range'] at hsb
  have hok : solve_switch_ids eqs k b = .ok v := by
    rw [solve_switch_ids, if_neg hne, hsb]
  obtain ⟨h1, h2, h4, _⟩ := solve_switch_ids_ok_spec hok
  have hbits : ∀ bit, bit < b → ∀ c, c < k →
      bitZ (v.getD c 0) bit = bitZ (trueIds.getD c 0) bit := by
    intro bit hbit
    have huniq := @masksMatrix_rank_unique _ _ hrank
      (fun c => bitZ (v.getD c 0) bit) (fun c => bitZ (trueIds.getD c 0) bit) ?heq
    · intro c hck
      exact huniq c hck
    case heq =>
      intro j hj
      have hv := (planeSat_iff_eqs.mp (h4 bit hbit)) j hj
      have ht := (planeSat_iff_eqs.mp (hplane bit hbit)) j hj
      rw [hv, ht]
  have hveq : v = trueIds := by
    apply List.ext_getElem (by rw [h1, hlen])
    intro n hn1 hn2
    have hnk : n < k := by rwa [h1] at hn1
    have hgv : v[n] = v.getD n 0 := by
      rw [List.getD_eq_getElem?_getD, List.getElem?_eq_getElem hn1]
      rfl
    have hgt : trueIds[n] = trueIds.getD n 0 := by
      rw [List.getD_eq_getElem?_getD, List.getElem?_eq_getElem hn2]
      rfl
    rw [hgv, hgt]
    apply Nat.eq_of_testBit_eq
    intro bit
    by_cases hbit : bit < b
    · exact bitZ_inj (hbits bit hbit n hnk)
    · have hl1 : v.getD n 0 < 2 ^ bit :=
        lt_of_lt_of_le (h2 n) (Nat.pow_le_pow_right (by norm_num) (by omega))
      have hl2 : trueIds.getD n 0 < 2 ^ bit :=
        lt_of_lt_of_le (hbound n) (Nat.pow_le_pow_right (by norm_num) (by omega))
      rw [Nat.testBit_lt_two_pow hl1, Nat.testBit_lt_two_pow hl2]
  rw [hok, hveq]

theorem solve_switch_ids_error {eqs : List PacketEquation} {k b bstar : ℕ}
    (hne : eqs.length ≠ 0) (hb : bstar < b)
    (hcons : ∀ bit, bit < bstar → ∃ x, planeSat (eqMasks eqs k) (eqPints eqs) k bit x)
    (hnone : ∀ x, ¬ planeSat (eqMasks eqs k) (eqPints eqs) k bstar x) :
    solve_switch_ids eqs k b = .error (some bstar) := by
  have hsb := solveBits_error_at eq_lens (eqMasks_bound eqs k) b 0 bstar
    (List.replicate k 0) (by omega) (by omega) (fun bb _ h2 => hcons bb h2) hnone
  rw [solve_switch_ids, if_neg hne, List.range_eq_range', hsb]

/-! ### Generation-mode simulator: the accumulator always equals the XOR of
the identifiers over the XOR-set -/

theorem xorSum_insert {s : Finset ℕ} {a : ℕ} (f : ℕ → ℕ) (h : a ∉ s) :
    xorSum (insert a s) f = f a ^^^ xorSum s f := by
  rw [xorSum, Finset.fold_insert h, xorSum]

theorem xorSum_singleton (a : ℕ) (f : ℕ → ℕ) : xorSum {a} f = f a := by
  rw [xorSum, Finset.fold_singleton, Nat.xor_zero]

theorem xorSum_empty (f : ℕ → ℕ) : xorSum ∅ f = 0 := by
  rw [xorSum, Finset.fold_empty]

theorem simGo_spec (apa : Murmur.APA) (switch_id : List ℕ) (max_degree pktid : ℕ) :
    ∀ (n h0 deg : ℕ) (s : Finset ℕ) (pint : ℕ),
      (∀ i ∈ s, i < h0) →
      pint = xorSum s (fun i => switch_id.getD i 0) →
      (∀ i ∈ (Murmur.simGo apa switch_id max_degree pktid
          (List.range' h0 n) (deg, s, pint)).2.1, i < h0 + n) ∧
      (Murmur.simGo apa switch_id max_degree pktid (List.range' h0 n) (deg, s, pint)).2.2 =
        xorSum (Murmur.simGo apa switch_id max_degree pktid
          (List.range' h0 n) (deg, s, pint)).2.1 (fun i => switch_id.getD i 0) := by
  intro n
  induction n with
  | zero =>
    intro h0 deg s pint hbound hpint
    rw [List.range'_zero]
    simp only [Murmur.simGo]
    exact ⟨fun i hi => by have := hbound i hi; omega, hpint⟩
  | succ nn ih =>
    intro h0 deg s pint hbound hpint
    rw [List.range'_succ]
    simp only [Murmur.simGo]
    by_cases hidx : apa.add_thresh.length ≤ h0 * max_degree + deg
    · rw [if_pos hidx]
      exact ⟨fun i hi => by have := hbound i hi; omega, hpint⟩
    · rw [if_neg hidx]
      by_cases hadd : Murmur.recipe_hash_v4 pktid h0 &&& 0xFFFFFFFF <
          apa.add_thresh.getD (h0 * max_degree + deg) 0
      · rw [if_pos hadd]
        have hnotmem : h0 ∉ s := fun hmem => by have := hbound h0 hmem; omega
        have hres := ih (h0 + 1) (deg + 1) (insert h0 s)
          (pint ^^^ switch_id.getD h0 0)
          (fun i hi => by
            rcases Finset.mem_insert.mp hi with rfl | hi2
            · omega
            · have := hbound i hi2; omega)
          (by rw [xorSum_insert _ hnotmem, ← hpint, Nat.xor_comm])
        refine ⟨fun i hi => by have := hres.1 i hi; omega, hres.2⟩
      · rw [if_neg hadd]
        by_cases hrep : apa.replace_thresh.getD (h0 * max_degree + deg) 0 <
            Murmur.recipe_hash_v4 pktid h0 &&& 0xFFFFFFFF
        · rw [if_pos hrep]
          have hres := ih (h0 + 1) 1 {h0} (switch_id.getD h0 0)
            (fun i hi => by rw [Finset.mem_singleton] at hi; omega)
            (by rw [xorSum_singleton])
          refine ⟨fun i hi => by have := hres.1 i hi; omega, hres.2⟩
        · rw [if_neg hrep]
          have hres := ih (h0 + 1) deg s pint
            (fun i hi => by have := hbound i hi; omega) hpint
          refine ⟨fun i hi => by have := hres.1 i hi; omega, hres.2⟩

theorem simulatePacket_spec (apa : Murmur.APA) (switch_id : List ℕ)
    (num_hops max_degree pktid : ℕ) :
    (∀ i ∈ (Murmur.simulatePacket apa switch_id num_hops max_degree pktid).2.1,
      i < num_hops) ∧
    (Murmur.simulatePacket apa switch_id num_hops max_degree pktid).2.2 =
      xorSum (Murmur.simulatePacket apa switch_id num_hops max_degree pktid).2.1
        (fun i => switch_id.getD i 0) := by
  rw [Murmur.simulatePacket, List.range_eq_range']
  have h := simGo_spec apa switch_id max_degree pktid num_hops 0 0 ∅ 0
    (fun i hi => absurd hi (Finset.not_mem_empty i)) (by rw [xorSum_empty])
  exact ⟨fun i hi => by have := h.1 i hi; omega, h.2⟩

theorem simulate_equations_length (num_packets : ℕ) (apa : Murmur.APA)
    (num_hops max_degree : ℕ) (switch_id : List ℕ) :
    (Murmur.simulate_equations num_packets apa num_hops max_degree switch_id).length
      = num_packets := by
  rw [Murmur.simulate_equations, List.length_map, List.length_range]

theorem simulate_equations_spec {num_packets : ℕ} {apa : Murmur.APA}
    {num_hops max_degree : ℕ} {switch_id : List ℕ} {eq : PacketEquation}
    (hmem : eq ∈ Murmur.simulate_equations num_packets apa num_hops max_degree switch_id) :
    (∀ i ∈ eq.xor_set, i < num_hops) ∧
    eq.final_pint = xorSum eq.xor_set (fun i => switch_id.getD i 0) := by
  rw [Murmur.simulate_equations, List.mem_map] at hmem
  obtain ⟨pktid, _, hval⟩ := hmem
  have hspec := simulatePacket_spec apa switch_id num_hops max_degree pktid
  rw [← hval]
  exact hspec

/-! ### Claim theorems -/

theorem sign_bit_le_one (x : ℕ) : _sign_bit x ≤ 1 := by
  rw [_sign_bit, Nat.and_one_is_mod]
  omega

/-- C2 counterexample: at hash_id = 0 and replace_threshold = 0 the code's
_p4_replace_decision returns true, while the specified symmetric
sign-overflow rule (the ADD rule applied to replace_threshold - h) returns
false, so the claimed equivalence fails at this concrete input. -/
theorem C2_replace_rule_cex :
    _p4_replace_decision 0 0 = true ∧ replace_decision_spec 0 0 = false := by
  constructor <;> rfl

/-- C2 (amended): Policy B's REPLACE decision ignores the subtraction result
it computes: for all inputs it decides REPLACE exactly when the sign bit of h
equals the sign bit of replace_threshold (both taken mod 2^32). -/
theorem C2_replace_decision_characterization (hash_id cum_prob : ℕ) :
    _p4_replace_decision hash_id cum_prob =
      decide (_sign_bit (hash_id &&& 0xFFFFFFFF) = _sign_bit (cum_prob &&& 0xFFFFFFFF)) := by
  simp only [_p4_replace_decision]
  have hh := sign_bit_le_one (hash_id &&& 0xFFFFFFFF)
  have hc := sign_bit_le_one (cum_prob &&& 0xFFFFFFFF)
  set hs := _sign_bit (hash_id &&& 0xFFFFFFFF) with hhs
  set cs := _sign_bit (cum_prob &&& 0xFFFFFFFF) with hcs
  interval_cases hs <;> interval_cases cs <;> rfl

/-- C3: the plain-threshold Policy A and the signed-subtraction Policy B are
not equivalent: at (hash, add_threshold, replace_threshold) = (0, 0, 0)
Policy A yields SKIP while Policy B yields REPLACE. -/
theorem C3_policies_differ :
    ∃ h a r : ℕ, h < 2 ^ 32 ∧ a < 2 ^ 32 ∧ r < 2 ^ 32 ∧ policyA h a r ≠ policyB h a r := by
  refine ⟨0, 0, 0, by norm_num, by norm_num, by norm_num, ?_⟩
  decide

/-- C10: the checksum-variant Hash Oracle recipe_hash_v4 of decoding.py
succeeds exactly when packet_id fits the 16-bit identification field and
hop_id the 8-bit hop_count field of struct.pack("!IIBHB", ...); when it
succeeds its value is a 32-bit quantity, and outside those ranges
struct.pack raises (modelled as none). -/
theorem C10_recipe_hash_v4_domain (pktid hopid : ℕ) :
    ((Decoding.recipe_hash_v4 pktid hopid).isSome ↔ pktid < 2 ^ 16 ∧ hopid < 2 ^ 8) ∧
    ∀ v, Decoding.recipe_hash_v4 pktid hopid = some v → v < 2 ^ 32 := by
  constructor
  · rw [Decoding.recipe_hash_v4, Decoding.pack_IIBHB]
    by_cases hcond : pktid < 2 ^ 16 ∧ hopid < 2 ^ 8
    · rw [if_pos ⟨by norm_num [Decoding.SRC_IP_U32], by norm_num [Decoding.DST_IP_U32],
        by norm_num [Decoding.IP_PROTO_RECIPE], hcond.1, hcond.2⟩]
      simpa using hcond
    · rw [if_neg (fun hfull => hcond ⟨hfull.2.2.2.1, hfull.2.2.2.2⟩)]
      simpa using hcond
  · intro v hv
    rw [Decoding.recipe_hash_v4, Decoding.pack_IIBHB] at hv
    by_cases hcond : pktid < 2 ^ 16 ∧ hopid < 2 ^ 8
    · rw [if_pos ⟨by norm_num [Decoding.SRC_IP_U32], by norm_num [Decoding.DST_IP_U32],
        by norm_num [Decoding.IP_PROTO_RECIPE], hcond.1, hcond.2⟩] at hv
      rw [Option.map_some', Option.some.injEq] at hv
      rw [← hv]
      have hle : Decoding.crc32 (Decoding.bytesBE4 Decoding.SRC_IP_U32 ++
          Decoding.bytesBE4 Decoding.DST_IP_U32 ++ [Decoding.IP_PROTO_RECIPE] ++
          Decoding.bytesBE2 pktid ++ [hopid]) &&& 0xFFFFFFFF ≤ 0xFFFFFFFF :=
        Nat.and_le_right
      omega
    · rw [if_neg (fun hfull => hcond ⟨hfull.2.2.2.1, hfull.2.2.2.2⟩)] at hv
      exact absurd hv (by simp)

/-- C10 witness: a concrete in-range evaluation of the checksum hash. -/
theorem C10_witness :
    ((Decoding.recipe_hash_v4 5 3).isSome = true) ∧ (2662267189 : ℕ) < 2 ^ 32 :=
  ⟨(C10_recipe_hash_v4_domain 5 3).1.mpr ⟨by norm_num, by norm_num⟩,
   (C10_recipe_hash_v4_domain 5 3).2 2662267189 (by rfl)⟩

/-- C8: the loader's 32-bit fixed-point encoding of a parsed probability
p in [0,1) equals floor(p * 2^32) mod 2^32, and the two loader variants
(probs_a/probs_cum and add_thresh/replace_thresh) encode identically. -/
theorem C8_fixed_point_encoding (p : ℚ) (h0 : 0 ≤ p) (h1 : p < 1) :
    Decoding.fixedPoint32 p = (⌊p * 2 ^ 32⌋).toNat % 2 ^ 32 ∧
    Murmur.fixedPoint32 p = Decoding.fixedPoint32 p := by
  have hq0 : (0 : ℚ) ≤ p * 2 ^ 32 := by positivity
  have hfl0 : (0 : ℤ) ≤ ⌊p * 2 ^ 32⌋ := Int.floor_nonneg.mpr hq0
  have hflU : ⌊p * 2 ^ 32⌋ < 2 ^ 32 := by
    rw [Int.floor_lt]
    push_cast
    nlinarith
  have htr : pyTrunc (p * 2 ^ 32) = ⌊p * 2 ^ 32⌋ := by
    rw [pyTrunc, if_neg (by linarith)]
  constructor
  · rw [Decoding.fixedPoint32, htr, Int.emod_eq_of_lt hfl0 hflU, Nat.mod_eq_of_lt (by omega)]
  · rfl

/-- C8 witness: the encoding of 1/2 matches floor(2^31). -/
theorem C8_witness :
    Decoding.fixedPoint32 (1 / 2) = (⌊(1 / 2 : ℚ) * 2 ^ 32⌋).toNat % 2 ^ 32 ∧
    Murmur.fixedPoint32 (1 / 2) = Decoding.fixedPoint32 (1 / 2) :=
  C8_fixed_point_encoding (1 / 2) (by norm_num) (by norm_num)

/-! ### The APA loader contract -/

/-- A line violating the loader's format checks: odd field count, or more
degree pairs than max_degree. -/
def badLine (parts : List ℚ) (max_degree : ℕ) : Prop :=
  parts.length % 2 ≠ 0 ∨ max_degree < parts.length / 2

instance (parts : List ℚ) (md : ℕ) : Decidable (badLine parts md) :=
  inferInstanceAs (Decidable (_ ∨ _))

theorem foldl_set_set_lengths (idx g1 g2 : ℕ → ℕ) :
    ∀ (l : List ℕ) (ab : List ℕ × List ℕ),
      ((l.foldl (fun ab d => (ab.1.set (idx d) (g1 d), ab.2.set (idx d) (g2 d))) ab).1.length
        = ab.1.length) ∧
      ((l.foldl (fun ab d => (ab.1.set (idx d) (g1 d), ab.2.set (idx d) (g2 d))) ab).2.length
        = ab.2.length) := by
  intro l
  induction l with
  | nil => intro ab; exact ⟨rfl, rfl⟩
  | cons d l' ih =>
    intro ab
    rw [List.foldl_cons]
    constructor
    · rw [(ih _).1]
      dsimp only
      rw [List.length_set]
    · rw [(ih _).2]
      dsimp only
      rw [List.length_set]

theorem fillLine_lengths_decoding (pa pc : List ℕ) (hop md : ℕ) (parts : List ℚ) :
    (Decoding.fillLine pa pc hop md parts).1.length = pa.length ∧
    (Decoding.fillLine pa pc hop md parts).2.length = pc.length := by
  rw [Decoding.fillLine]
  exact foldl_set_set_lengths (fun d => hop * md + d)
    (fun d => Decoding.fixedPoint32 (parts.getD (2 * d) 0))
    (fun d => Decoding.fixedPoint32 (parts.getD (2 * d + 1) 0)) _ (pa, pc)

theorem fillLine_lengths_murmur (ta tr : List ℕ) (hop md : ℕ) (parts : List ℚ) :
    (Murmur.fillLine ta tr hop md parts).1.length = ta.length ∧
    (Murmur.fillLine ta tr hop md parts).2.length = tr.length := by
  rw [Murmur.fillLine]
  exact foldl_set_set_lengths (fun d => hop * md + d)
    (fun d => Murmur.fixedPoint32 (parts.getD (2 * d) 0))
    (fun d => Murmur.fixedPoint32 (parts.getD (2 * d + 1) 0)) _ (ta, tr)

theorem loadLines_error_decoding (md : ℕ) :
    ∀ (rest : List (List ℚ)) (i0 base : ℕ) (acc : List ℕ × List ℕ),
      i0 < rest.length → badLine (rest.getD i0 []) md →
      (∀ j < i0, ¬ badLine (rest.getD j []) md) →
      Decoding.loadLines md rest base acc = .error (base + i0) := by
  intro rest
  induction rest with
  | nil =>
    intro i0 base acc h
    rw [List.length_nil] at h
    omega
  | cons parts rest' ih =>
    intro i0 base acc hlen hbad hgood
    rw [Decoding.loadLines]
    by_cases hi0 : i0 = 0
    · subst hi0
      rw [show (parts :: rest').getD 0 [] = parts from rfl] at hbad
      rcases hbad with hodd | hover
      · rw [if_pos hodd, Nat.add_zero]
      · by_cases hodd : parts.length % 2 ≠ 0
        · rw [if_pos hodd, Nat.add_zero]
        · rw [if_neg hodd, if_pos hover, Nat.add_zero]
    · obtain ⟨j, rfl⟩ : ∃ j, i0 = j + 1 := ⟨i0 - 1, by omega⟩
      have hp_good : ¬ badLine parts md := hgood 0 (by omega)
      have hodd : ¬ (parts.length % 2 ≠ 0) := fun h => hp_good (Or.inl h)
      have hover : ¬ (md < parts.length / 2) := fun h => hp_good (Or.inr h)
      rw [if_neg hodd, if_neg hover]
      have hres := ih j (base + 1) (Decoding.fillLine acc.1 acc.2 base md parts)
        (by rw [List.length_cons] at hlen; omega) hbad
        (fun j' hj' => hgood (j' + 1) (by omega))
      rw [hres]
      congr 1
      omega

theorem loadLines_error_murmur (md : ℕ) :
    ∀ (rest : List (List ℚ)) (i0 base : ℕ) (acc : List ℕ × List ℕ),
      i0 < rest.length → badLine (rest.getD i0 []) md →
      (∀ j < i0, ¬ badLine (rest.getD j []) md) →
      Murmur.loadLines md rest base acc = .error (base + i0) := by
  intro rest
  induction rest with
  | nil =>
    intro i0 base acc h
    rw [List.length_nil] at h
    omega
  | cons parts rest' ih =>
    intro i0 base acc hlen hbad hgood
    rw [Murmur.loadLines]
    by_cases hi0 : i0 = 0
    · subst hi0
      rw [show (parts :: rest').getD 0 [] = parts from rfl] at hbad
      rcases hbad with hodd | hover
      · rw [if_pos hodd, Nat.add_zero]
      · by_cases hodd : parts.length % 2 ≠ 0
        · rw [if_pos hodd, Nat.add_zero]
        · rw [if_neg hodd, if_pos hover, Nat.add_zero]
    · obtain ⟨j, rfl⟩ : ∃ j, i0 = j + 1 := ⟨i0 - 1, by omega⟩
      have hp_good : ¬ badLine parts md := hgood 0 (by omega)
      have hodd : ¬ (parts.length % 2 ≠ 0) := fun h => hp_good (Or.inl h)
      have hover : ¬ (md < parts.length / 2) := fun h => hp_good (Or.inr h)
      rw [if_neg hodd, if_neg hover]
      have hres := ih j (base + 1) (Murmur.fillLine acc.1 acc.2 base md parts)
        (by rw [List.length_cons] at hlen; omega) hbad
        (fun j' hj' => hgood (j' + 1) (by omega))
      rw [hres]
      congr 1
      omega

theorem loadLines_ok_decoding (md : ℕ) :
    ∀ (rest : List (List ℚ)) (base : ℕ) (acc : List ℕ × List ℕ),
      (∀ j < rest.length, ¬ badLine (rest.getD j []) md) →
      ∃ res, Decoding.loadLines md rest base acc = .ok res ∧
        res.1.length = acc.1.length ∧ res.2.length = acc.2.length := by
  intro rest
  induction rest with
  | nil =>
    intro base acc _
    exact ⟨acc, rfl, rfl, rfl⟩
  | cons parts rest' ih =>
    intro base acc hgood
    have hp_good : ¬ badLine parts md := hgood 0 (by rw [List.length_cons]; omega)
    have hodd : ¬ (parts.length % 2 ≠ 0) := fun h => hp_good (Or.inl h)
    have hover : ¬ (md < parts.length / 2) := fun h => hp_good (Or.inr h)
    rw [Decoding.loadLines]
    rw [if_neg hodd, if_neg hover]
    obtain ⟨res, hres, hl1, hl2⟩ := ih (base + 1)
      (Decoding.fillLine acc.1 acc.2 base md parts)
      (fun j hj => hgood (j + 1) (by rw [List.length_cons]; omega))
    refine ⟨res, hres, ?_, ?_⟩
    · rw [hl1, (fillLine_lengths_decoding acc.1 acc.2 base md parts).1]
    · rw [hl2, (fillLine_lengths_decoding acc.1 acc.2 base md parts).2]

theorem loadLines_ok_murmur (md : ℕ) :
    ∀ (rest : List (List ℚ)) (base : ℕ) (acc : List ℕ × List ℕ),
      (∀ j < rest.length, ¬ badLine (rest.getD j []) md) →
      ∃ res, Murmur.loadLines md rest base acc = .ok res ∧
        res.1.length = acc.1.length ∧ res.2.length = acc.2.length := by
  intro rest
  induction rest with
  | nil =>
    intro base acc _
    exact ⟨acc, rfl, rfl, rfl⟩
  | cons parts rest' ih =>
    intro base acc hgood
    have hp_good : ¬ badLine parts md := hgood 0 (by rw [List.length_cons]; omega)
    have hodd : ¬ (parts.length % 2 ≠ 0) := fun h => hp_good (Or.inl h)
    have hover : ¬ (md < parts.length / 2) := fun h => hp_good (Or.inr h)
    rw [Murmur.loadLines]
    rw [if_neg hodd, if_neg hover]
    obtain ⟨res, hres, hl1, hl2⟩ := ih (base + 1)
      (Murmur.fillLine acc.1 acc.2 base md parts)
      (fun j hj => hgood (j + 1) (by rw [List.length_cons]; omega))
    refine ⟨res, hres, ?_, ?_⟩
    · rw [hl1, (fillLine_lengths_murmur acc.1 acc.2 base md parts).1]
    · rw [hl2, (fillLine_lengths_murmur acc.1 acc.2 base md parts).2]

/-- C9: both load_apa variants raise on the first non-blank line with an odd
field count or a degree count over max_degree, carrying that line's (0-based)
index among the non-blank lines; on well-formed input (all fields already
parsed as numbers) they succeed with max_hops = number of non-blank lines and
flattened threshold arrays of length max_hops * max_degree. -/
theorem C9_load_apa_contract (lines : List (List ℚ)) (max_degree : ℕ) :
    (∀ i0 < lines.length, badLine (lines.getD i0 []) max_degree →
      (∀ j < i0, ¬ badLine (lines.getD j []) max_degree) →
      Decoding.load_apa lines max_degree = .error i0 ∧
      Murmur.load_apa lines max_degree = .error i0) ∧
    ((∀ j < lines.length, ¬ badLine (lines.getD j []) max_degree) →
      ∃ apaD apaM, Decoding.load_apa lines max_degree = .ok apaD ∧
        Murmur.load_apa lines max_degree = .ok apaM ∧
        apaD.max_hops = lines.length ∧ apaM.max_hops = lines.length ∧
        apaD.probs_a.length = lines.length * max_degree ∧
        apaD.probs_cum.length = lines.length * max_degree ∧
        apaM.add_thresh.length = lines.length * max_degree ∧
        apaM.replace_thresh.length = lines.length * max_degree) := by
  constructor
  · intro i0 hi0 hbad hgood
    constructor
    · rw [Decoding.load_apa]
      have h := loadLines_error_decoding max_degree lines i0 0
        (List.replicate (lines.length * max_degree) 0,
         List.replicate (lines.length * max_degree) 0) hi0 hbad hgood
      rw [Nat.zero_add] at h
      rw [h]
      rfl
    · rw [Murmur.load_apa]
      have h := loadLines_error_murmur max_degree lines i0 0
        (List.replicate (lines.length * max_degree) 0,
         List.replicate (lines.length * max_degree) 0) hi0 hbad hgood
      rw [Nat.zero_add] at h
      rw [h]
      rfl
  · intro hgood
    obtain ⟨resD, hresD, hD1, hD2⟩ := loadLines_ok_decoding max_degree lines 0
      (List.replicate (lines.length * max_degree) 0,
       List.replicate (lines.length * max_degree) 0) hgood
    obtain ⟨resM, hresM, hM1, hM2⟩ := loadLines_ok_murmur max_degree lines 0
      (List.replicate (lines.length * max_degree) 0,
       List.replicate (lines.length * max_degree) 0) hgood
    refine ⟨⟨lines.length, max_degree, resD.1, resD.2⟩,
            ⟨lines.length, max_degree, resM.1, resM.2⟩, ?_, ?_, rfl, rfl, ?_, ?_, ?_, ?_⟩
    · rw [Decoding.load_apa, hresD]
      rfl
    · rw [Murmur.load_apa, hresM]
      rfl
    · rw [hD1, List.length_replicate]
    · rw [hD2, List.length_replicate]
    · rw [hM1, List.length_replicate]
    · rw [hM2, List.length_replicate]

/-- C9 witness: a file whose second non-blank line has an odd field count is
rejected with that line's index. -/
theorem C9_witness :
    Decoding.load_apa [[0, 1], [0]] 4 = .error 1 ∧
    Murmur.load_apa [[0, 1], [0]] 4 = .error 1 :=
  (C9_load_apa_contract [[0, 1], [0]] 4).1 1 (by norm_num) (by decide)
    (fun j hj => by interval_cases j <;> decide)

/-- C4 counterexample: in the generation-mode simulator
(decoding_murmur.py's simulate_xor_degree_distribution) the ADD action
increments xor_degree without the modulo: with an always-ADD APA over 2 hops
and max_degree = 2, after the two hops of packet 0 the xor_degree is 2, which
is not in [0, max_degree) = [0, 2). -/
theorem C4_generation_mode_degree_cex :
    (Murmur.simGo ⟨2, 2, [4294967295, 4294967295, 4294967295, 4294967295], [0, 0, 0, 0]⟩
      [1, 2] 2 0 [0, 1] (0, ∅, 0)).1 = 2 ∧ ¬ ((2 : ℕ) < 2) := by
  constructor
  · rfl
  · omega

/-- C4 (amended): in the decode-mode re-run (decoding.py's
reconstruct_xor_sets) ADD toggles membership and increments xor_degree modulo
max_degree and REPLACE resets it to 1, so when max_degree ≥ 2 the xor_degree
stays in [0, max_degree) at every step — whatever values the hash calls
return — and then the APA index hop * max_degree + xor_degree always lies in
the row of the current hop (its quotient by max_degree is the hop).  The
generation-mode simulator, by contrast, increments without the modulo (see
the counterexample). -/
theorem C4_decode_mode_degree_invariant (hash : ℕ → ℕ → ℕ) (apa : Decoding.APA)
    (max_degree pktid : ℕ) (hmd : 2 ≤ max_degree) :
    (∀ (hops : List ℕ) (deg : ℕ) (s : Finset ℕ), deg < max_degree →
      (Decoding.reconstructGo hash apa max_degree pktid hops (deg, s)).1 < max_degree) ∧
    (∀ hop d, d < max_degree → (hop * max_degree + d) / max_degree = hop) := by
  constructor
  · intro hops
    induction hops with
    | nil =>
      intro deg s hdeg
      exact hdeg
    | cons hopid rest ih =>
      intro deg s hdeg
      rw [Decoding.reconstructGo]
      by_cases hidx : apa.probs_a.length ≤ hopid * max_degree + deg
      · rw [if_pos hidx]
        exact hdeg
      · rw [if_neg hidx]
        by_cases hadd : _p4_add_decision (hash pktid hopid)
            (apa.probs_a.getD (hopid * max_degree + deg) 0)
        · rw [if_pos hadd]
          exact ih ((deg + 1) % max_degree) _ (Nat.mod_lt _ (by omega))
        · rw [if_neg hadd]
          by_cases hrep : _p4_replace_decision (hash pktid hopid)
              (apa.probs_cum.getD (hopid * max_degree + deg) 0)
          · rw [if_pos hrep]
            exact ih 1 _ (by omega)
          · rw [if_neg hrep]
            exact ih deg s hdeg
  · intro hop d hd
    rw [Nat.add_comm, Nat.add_mul_div_right _ _ (by omega : 0 < max_degree),
      Nat.div_eq_of_lt hd, Nat.zero_add]

/-- C4 witness: the amended invariant at a concrete configuration. -/
theorem C4_witness :
    (2 : ℕ) ≤ 2 ∧ (0 : ℕ) < 2 ∧
    ((Decoding.reconstructGo (fun _ _ => 0) ⟨1, 2, [0, 0], [0, 0]⟩ 2 0 [0] (0, ∅)).1 < 2 ∧
      ∀ hop d, d < 2 → (hop * 2 + d) / 2 = hop) := by
  refine ⟨by omega, by omega, ?_, ?_⟩
  · exact (C4_decode_mode_degree_invariant (fun _ _ => 0) ⟨1, 2, [0, 0], [0, 0]⟩ 2 0
      (by omega)).1 [0] 0 ∅ (by omega)
  · exact fun hop d hd => (C4_decode_mode_degree_invariant (fun _ _ => 0)
      ⟨1, 2, [0, 0], [0, 0]⟩ 2 0 (by omega)).2 hop d hd

theorem cast_zmod_inj_le_one {a b : ℕ} (ha : a ≤ 1) (hb : b ≤ 1)
    (h : (a : ZMod 2) = b) : a = b := by
  interval_cases a <;> interval_cases b <;>
    first
    | rfl
    | exact absurd h (by decide)

theorem exists_getBit_one_of_ne_zero {M k : ℕ} (hM : M ≠ 0) (hMk : M < 2 ^ k) :
    ∃ j < k, getBit M j = 1 := by
  by_contra hnone
  push_neg at hnone
  apply hM
  apply eq_zero_of_getBit_lt hMk
  intro c hc
  apply getBit_eq_zero_of_ne_one
  exact hnone c hc

theorem plane_consistent_of_nonzero {M : ℕ} (k : ℕ) (hM : M ≠ 0) (hMk : M < 2 ^ k)
    {c : ℕ} (hc : c ≤ 1) : ∃ x : ℕ → ZMod 2, dotZ k M x = (c : ZMod 2) := by
  by_cases hc0 : c = 0
  · refine ⟨fun _ => 0, ?_⟩
    subst hc0
    rw [dotZ]
    rw [Finset.sum_eq_zero (fun i _ => by ring)]
    norm_num
  · have hc1 : c = 1 := by omega
    obtain ⟨j0, hj0k, hj0⟩ := exists_getBit_one_of_ne_zero hM hMk
    refine ⟨fun i => if i = j0 then 1 else 0, ?_⟩
    rw [dotZ, Finset.sum_eq_single_of_mem j0 (Finset.mem_range.mpr hj0k) ?side]
    · rw [if_pos rfl, bitZ, hj0, hc1]
      norm_num
    case side =>
      intro b _ hbne
      rw [if_neg hbne]
      ring

/-- C5 counterexample: two equations whose xor_sets induce identical row
masks over [0, 1) (both empty, mask 0) and whose accumulators first differ at
bit 1 (1 vs 3): the solve fails, but it reports plane 0, where the all-zero
rows already force 0 = 1, not the smallest differing bit 1. -/
theorem C5_smallest_bit_cex :
    solve_switch_ids [⟨0, 1, ∅⟩, ⟨1, 3, ∅⟩] 1 16 = .error (some 0) ∧
    getBit 1 1 ≠ getBit 3 1 ∧ (∀ j < 1, getBit 1 j = getBit 3 j) ∧ (0 : ℕ) ≠ 1 := by
  refine ⟨?_, by decide, ?_, by omega⟩
  · rfl
  · intro j hj
    interval_cases j
    rfl

/-- C5 (amended): for two equations with identical and nonzero row masks over
[0, num_hops) whose accumulators differ at some bit below id_bits, the solve
fails and reports exactly the smallest differing bit as the failing plane
(with an all-zero common mask the reported plane can be smaller, as the
counterexample shows). -/
theorem C5_inconsistency_smallest_bit (k b bstar pk1 pk2 p1 p2 : ℕ) (s1 s2 : Finset ℕ)
    (hk : maskOf s1 k = maskOf s2 k) (hnz : maskOf s1 k ≠ 0)
    (hdiff : getBit p1 bstar ≠ getBit p2 bstar)
    (hagree : ∀ j < bstar, getBit p1 j = getBit p2 j)
    (hb : bstar < b) :
    solve_switch_ids [⟨pk1, p1, s1⟩, ⟨pk2, p2, s2⟩] k b = .error (some bstar) := by
  have hMk : maskOf s1 k < 2 ^ k := maskOf_lt_two_pow s1 k
  apply solve_switch_ids_error (by simp) hb
  · intro bit hbit
    obtain ⟨x, hx⟩ := plane_consistent_of_nonzero k hnz hMk (getBit_le_one p1 bit)
    refine ⟨x, planeSat_iff_eqs.mpr ?_⟩
    intro j hj
    rw [List.length_cons, List.length_cons, List.length_nil] at hj
    interval_cases j
    · exact hx
    · show dotZ k (maskOf s2 k) x = bitZ p2 bit
      rw [← hk, hx, bitZ, hagree bit hbit]
  · intro x hx
    have h1 := planeSat_iff_eqs.mp hx 0 (by simp)
    have h2 := planeSat_iff_eqs.mp hx 1 (by simp)
    have h1' : dotZ k (maskOf s1 k) x = bitZ p1 bstar := h1
    have h2' : dotZ k (maskOf s1 k) x = bitZ p2 bstar := by
      rw [hk]
      exact h2
    apply hdiff
    apply cast_zmod_inj_le_one (getBit_le_one p1 bstar) (getBit_le_one p2 bstar)
    rw [show ((getBit p1 bstar : ℕ) : ZMod 2) = bitZ p1 bstar from rfl,
      show ((getBit p2 bstar : ℕ) : ZMod 2) = bitZ p2 bstar from rfl, ← h1', ← h2']

/-- C5 witness: identical nonzero masks over two hops, accumulators 4 and 0
first differing at bit 2; the reported failing plane is 2. -/
theorem C5_witness :
    solve_switch_ids [⟨0, 4, {0, 1}⟩, ⟨1, 0, {0, 1}⟩] 2 16 = .error (some 2) := by
  apply C5_inconsistency_smallest_bit 2 16 2 0 1 4 0 {0, 1} {0, 1}
  · rfl
  · decide
  · decide
  · intro j hj
    interval_cases j <;> rfl
  · omega

/-- C6: for num_hops = 2 and a single equation whose xor_set induces a
nonzero mask on [0, 2), solve_switch_ids succeeds for every final_pint (and
every id_bits), and every identifier bit of each non-pivot (free) hop — a
hop whose column gets no pivot in that plane's elimination — is zero in the
returned vector. -/
theorem C6_single_equation_underdetermined (pk pint b : ℕ) (s : Finset ℕ)
    (hnz : maskOf s 2 ≠ 0) :
    ∃ v, solve_switch_ids [⟨pk, pint, s⟩] 2 b = .ok v ∧
      ∀ hop bit, hop < 2 → bit < b →
        (gaussElim (eqMasks [⟨pk, pint, s⟩] 2)
          (ysAt (eqPints [⟨pk, pint, s⟩]) bit) 2).pivot_row_for_col.getD hop (-1) = -1 →
        (v.getD hop 0).testBit bit = false := by
  have hMk : maskOf s 2 < 2 ^ 2 := maskOf_lt_two_pow s 2
  have hplanes : ∀ bit, bit < b →
      ∃ x, planeSat (eqMasks [⟨pk, pint, s⟩] 2) (eqPints [⟨pk, pint, s⟩]) 2 bit x := by
    intro bit _
    obtain ⟨x, hx⟩ := plane_consistent_of_nonzero 2 hnz hMk (getBit_le_one pint bit)
    refine ⟨x, planeSat_iff_eqs.mpr ?_⟩
    intro j hj
    rw [List.length_cons, List.length_nil] at hj
    interval_cases j
    exact hx
  obtain ⟨v, hsb⟩ := solveBits_ok_of_consistent eq_lens (eqMasks_bound _ 2) b 0
    (List.replicate 2 0) (fun bit _ hb2 => hplanes bit (by omega))
  rw [← List.range_eq_range'] at hsb
  have hok : solve_switch_ids [⟨pk, pint, s⟩] 2 b = .ok v := by
    rw [solve_switch_ids, if_neg (by simp), hsb]
  obtain ⟨_, _, _, hfree⟩ := solve_switch_ids_ok_spec hok
  exact ⟨v, hok, fun hop bit h1 h2 hpiv => hfree hop bit h1 h2 hpiv⟩

/-- C6 witness: a concrete single-equation instance with both hops in the
xor_set. -/
theorem C6_witness :
    ∃ v, solve_switch_ids [⟨0, 43981, {0, 1}⟩] 2 16 = .ok v ∧
      ∀ hop bit, hop < 2 → bit < 16 →
        (gaussElim (eqMasks [⟨0, 43981, {0, 1}⟩] 2)
          (ysAt (eqPints [⟨0, 43981, {0, 1}⟩]) bit) 2).pivot_row_for_col.getD hop (-1) = -1 →
        (v.getD hop 0).testBit bit = false :=
  C6_single_equation_underdetermined 0 43981 16 {0, 1} (by decide)

/-- C7: solver soundness.  Whenever solve_switch_ids returns a vector, the
XOR of the returned identifiers over the hop indices of each equation's
xor_set that lie in [0, num_hops) — indices outside that range are dropped
when the row mask is built — equals that equation's final_pint reduced
modulo 2^id_bits. -/
theorem C7_solver_soundness (eqs : List PacketEquation) (num_hops id_bits : ℕ)
    (v : List ℕ) (hok : solve_switch_ids eqs num_hops id_bits = .ok v) :
    ∀ eq ∈ eqs, xorSum (eq.xor_set.filter (· < num_hops)) (fun i => v.getD i 0)
      = eq.final_pint % 2 ^ id_bits :=
  fun eq hmem => (solve_switch_ids_sound_xor hok).2.2 eq hmem

/-- C7 witness: concrete two-equation decode whose returned vector satisfies
both equations. -/
theorem C7_witness :
    xorSum (({0, 1} : Finset ℕ).filter (· < 2)) (fun i => [4660, 22136].getD i 0)
      = 17484 % 2 ^ 16 :=
  C7_solver_soundness [⟨0, 17484, {0, 1}⟩, ⟨1, 22136, {1}⟩] 2 16 [4660, 22136]
    (by rfl) ⟨0, 17484, {0, 1}⟩ (List.mem_cons_self _ _)

/-- C1 counterexample: at num_hops = 0 and N = 0 every hypothesis of the
claim holds — N ≥ num_hops, the identifier vector is the (empty) 0-hop
vector, each generated packet's accumulator is vacuously the XOR over its
xor_set, and the equations' mask matrix has rank 0 = num_hops — yet
solve_switch_ids returns None (its empty-equation-list early exit), not the
identifier vector. -/
theorem C1_degenerate_cex :
    (0 : ℕ) ≤ 0 ∧ ([] : List ℕ).length = 0 ∧
    (masksMatrix (Murmur.simulate_equations 0 ⟨0, 0, [], []⟩ 0 0 []) 0).rank = 0 ∧
    solve_switch_ids (Murmur.simulate_equations 0 ⟨0, 0, [], []⟩ 0 0 []) 0 16
      ≠ .ok [] := by
  refine ⟨le_refl _, rfl, ?_, ?_⟩
  · have h := Matrix.rank_le_card_width
      (masksMatrix (Murmur.simulate_equations 0 ⟨0, 0, [], []⟩ 0 0 []) 0)
    rw [Fintype.card_fin] at h
    omega
  · intro h
    rw [show solve_switch_ids (Murmur.simulate_equations 0 ⟨0, 0, [], []⟩ 0 0 []) 0 16
        = Except.error none from rfl] at h
    exact Except.noConfusion h

/-- C1 (amended): the round trip, provided at least one packet is generated
(for N = num_hops = 0 the solver's empty-equation early exit returns None,
see the counterexample).  For every id_bits-wide identifier vector and every
APA, if N ≥ num_hops packets (N ≥ 1) are generated by the generation-mode
Path Simulator — whose accumulator provably equals the XOR of the true
identifiers over the packet's xor_set — and the equations' xor_set mask
matrix has rank num_hops over GF(2), then solve_switch_ids returns exactly
the original identifier vector. -/
theorem C1_encode_decode_roundtrip (apa : Murmur.APA)
    (N num_hops max_degree id_bits : ℕ) (switch_id : List ℕ)
    (hN1 : 1 ≤ N) (hNk : num_hops ≤ N)
    (hlen : switch_id.length = num_hops)
    (hbound : ∀ i < num_hops, switch_id.getD i 0 < 2 ^ id_bits)
    (hrank : (masksMatrix
        (Murmur.simulate_equations N apa num_hops max_degree switch_id) num_hops).rank
      = num_hops) :
    solve_switch_ids (Murmur.simulate_equations N apa num_hops max_degree switch_id)
      num_hops id_bits = .ok switch_id := by
  have hbound' : ∀ i, switch_id.getD i 0 < 2 ^ id_bits := by
    intro i
    by_cases hik : i < num_hops
    · exact hbound i hik
    · rw [getD_ge' _ (by omega)]
      exact Nat.pos_pow_of_pos _ (by norm_num)
  apply solve_switch_ids_exact
  · rw [simulate_equations_length]
    omega
  · exact hlen
  · exact hbound'
  · intro j hj
    have hmem : (Murmur.simulate_equations N apa num_hops max_degree switch_id)[j]
        ∈ Murmur.simulate_equations N apa num_hops max_degree switch_id :=
      List.getElem_mem hj
    obtain ⟨hsub, hpint⟩ := simulate_equations_spec hmem
    have hfilter : (Murmur.simulate_equations N apa num_hops max_degree
        switch_id)[j].xor_set.filter (· < num_hops) =
        (Murmur.simulate_equations N apa num_hops max_degree switch_id)[j].xor_set :=
      Finset.filter_true_of_mem (fun i hi => hsub i hi)
    have hplt : (Murmur.simulate_equations N apa num_hops max_degree
        switch_id)[j].final_pint < 2 ^ id_bits := by
      rw [hpint]
      exact xorSum_lt (fun i _ => hbound' i)
    rw [hfilter, Nat.mod_eq_of_lt hplt]
    exact hpint.symm
  · exact hrank

theorem C1_witness_rank :
    (masksMatrix (Murmur.simulate_equations 2
      ⟨2, 2, [4294967295, 0, 0, 1050000000], [0, 0, 0, 0]⟩ 2 2 [4660, 22136]) 2).rank
      = 2 := by
  have hM : masksMatrix (Murmur.simulate_equations 2
      ⟨2, 2, [4294967295, 0, 0, 1050000000], [0, 0, 0, 0]⟩ 2 2 [4660, 22136]) 2
      = Matrix.of ![![1, 1], ![0, 1]] := by
    apply Matrix.ext
    intro i j
    fin_cases i <;> fin_cases j <;> decide
  rw [hM]
  have hunit : IsUnit (Matrix.of ![![(1 : ZMod 2), 1], ![0, 1]]) := by
    rw [Matrix.isUnit_iff_isUnit_det]
    have hdet : (Matrix.of ![![(1 : ZMod 2), 1], ![0, 1]]).det = 1 := by decide
    rw [hdet]
    exact isUnit_one
  rw [Matrix.rank_of_isUnit _ hunit, Fintype.card_fin]

/-- C1 witness: a two-hop, two-packet run whose generated masks are {0,1} and
{1} (rank 2); decoding returns the original identifiers 0x1234 and 0x5678. -/
theorem C1_witness :
    solve_switch_ids (Murmur.simulate_equations 2
      ⟨2, 2, [4294967295, 0, 0, 1050000000], [0, 0, 0, 0]⟩ 2 2 [4660, 22136]) 2 16
      = .ok [4660, 22136] :=
  C1_encode_decode_roundtrip ⟨2, 2, [4294967295, 0, 0, 1050000000], [0, 0, 0, 0]⟩
    2 2 2 16 [4660, 22136] (by decide) (by decide) (by rfl)
    (fun i hik => by interval_cases i <;> decide) C1_witness_rank
